import Mathlib

/-!
Verification of the glide post-processing pipeline.

The Rust sources are shallowly embedded: `f64` values are modelled as
rationals (`ℚ`) except where the code genuinely computes with
transcendental functions (`exp`, `sqrt`), which are modelled over `ℝ`.
Machine-integer pixel arithmetic (`u8`/`u32`) is modelled over `ℕ` with
explicit truncating division, and `as`-casts are modelled by explicit
floor/truncate/saturate functions.
-/

namespace Glide

/-- Kind of a recorded pointer event (`EventType` in `event_tap.rs`). -/
inductive EventType where
  | Move
  | LeftClick
  | RightClick
deriving DecidableEq, Repr

/-- A recorded pointer event (`CursorEvent`): position in screen points
plus a timestamp in seconds. -/
structure Event where
  x : ℚ
  y : ℚ
  timestamp : ℚ
  eventType : EventType
deriving DecidableEq, Repr

/-- Zoom configuration (`ZoomConfig` in `processing/zoom.rs`). -/
structure ZoomConfig where
  max_zoom : ℚ
  ease_in : ℚ
  hold : ℚ
  ease_out : ℚ
  debounce : ℚ
deriving DecidableEq, Repr

/-- `ZoomConfig::default()` in `processing/zoom.rs`. -/
def defaultZoomConfig : ZoomConfig :=
  { max_zoom := 1.5, ease_in := 0.6, hold := 4.0, ease_out := 0.8, debounce := 0.5 }

/-- `pan_window = config.hold + config.ease_out + config.ease_in`
(`calculate_zoom`, `processing/zoom.rs`). -/
def panWindow (cfg : ZoomConfig) : ℚ := cfg.hold + cfg.ease_out + cfg.ease_in

/-- `matches!(e.event_type, EventType::LeftClick | EventType::RightClick)`. -/
def Event.isClick (e : Event) : Bool :=
  match e.eventType with
  | .LeftClick => true
  | .RightClick => true
  | .Move => false

/-- The click events of a log, in log order (the `clicks` vector of
`get_effective_clicks`). -/
def clicksOf (events : List Event) : List Event := events.filter Event.isClick

/-- The debouncing loop of `get_effective_clicks`: keep a click iff its
timestamp exceeds the last kept timestamp by strictly more than `d`.
Generic in the element type (with `ts` extracting the timestamp) so the
same recursion can be run over index-annotated clicks. -/
def debAux {α : Type} (ts : α → ℚ) (d : ℚ) : α → List α → List α
  | _, [] => []
  | last, c :: rest =>
    if d < ts c - ts last then c :: debAux ts d c rest else debAux ts d last rest

/-- `get_effective_clicks` (`processing/zoom.rs`): the first click is always
kept, later clicks are kept iff they exceed the previously kept click's
timestamp by more than `config.debounce`. -/
def get_effective_clicks (events : List Event) (cfg : ZoomConfig) : List Event :=
  match clicksOf events with
  | [] => []
  | c :: rest => c :: debAux Event.timestamp cfg.debounce c rest

/-- The inter-click gap relation used by the debouncer. -/
def gapGT (d : ℚ) (a b : Event) : Prop := d < b.timestamp - a.timestamp

section Debounce

variable {α : Type} (ts : α → ℚ) (d : ℚ)

theorem debAux_sublist : ∀ (last : α) (l : List α), (debAux ts d last l).Sublist l := by
  intro last l
  induction l generalizing last with
  | nil => simp [debAux]
  | cons c rest ih =>
    by_cases h : d < ts c - ts last
    · simpa [debAux, h] using (ih c).cons₂ c
    · simpa [debAux, h] using (ih last).cons c

theorem debAux_chain : ∀ (last : α) (l : List α),
    List.Chain (fun a b => d < ts b - ts a) last (debAux ts d last l) := by
  intro last l
  induction l generalizing last with
  | nil => simp [debAux]
  | cons c rest ih =>
    by_cases h : d < ts c - ts last
    · rw [debAux, if_pos h]
      exact List.Chain.cons h (ih c)
    · rw [debAux, if_neg h]
      exact ih last

/-- With a nonnegative debounce every kept element's timestamp strictly
exceeds `ts last + d`. -/
theorem debAux_mem_gt (hd : 0 ≤ d) : ∀ (last : α) (l : List α) (b : α),
    b ∈ debAux ts d last l → ts last + d < ts b := by
  intro last l
  induction l generalizing last with
  | nil => simp [debAux]
  | cons c rest ih =>
    intro b hb
    by_cases h : d < ts c - ts last
    · rw [debAux, if_pos h] at hb
      rcases List.mem_cons.mp hb with rfl | hb
      · linarith
      · have := ih c b hb
        linarith
    · rw [debAux, if_neg h] at hb
      exact ih last b hb

/-- Greedy maximality: over a list sorted by timestamp, the debouncer's
output is at least as long as any sublist whose consecutive elements are
separated by more than `d` (validated against any start `lastS` no
earlier than the debouncer's accumulator `last`). -/
theorem debAux_maximal : ∀ (l : List α) (last lastS : α) (S : List α),
    List.Pairwise (fun a b => ts a ≤ ts b) l → S.Sublist l →
    List.Chain (fun a b => d < ts b - ts a) lastS S → ts last ≤ ts lastS →
    S.length ≤ (debAux ts d last l).length := by
  intro l
  induction l with
  | nil =>
    intro last lastS S _ hsub _ _
    simp [List.sublist_nil.mp hsub]
  | cons c rest ih =>
    intro last lastS S hpair hsub hchain hle
    have hpc : ∀ x ∈ rest, ts c ≤ ts x := by
      intro x hx
      exact (List.pairwise_cons.mp hpair).1 x hx
    have hpr : List.Pairwise (fun a b => ts a ≤ ts b) rest :=
      (List.pairwise_cons.mp hpair).2
    by_cases hacc : d < ts c - ts last
    · -- the debouncer keeps `c`
      rw [debAux, if_pos hacc]
      cases S with
      | nil => simp
      | cons s1 Stl =>
        have hs1mem : s1 ∈ c :: rest := hsub.subset (List.mem_cons_self s1 Stl)
        have hs1ts : ts c ≤ ts s1 := by
          rcases List.mem_cons.mp hs1mem with h | h
          · simp [h]
          · exact hpc s1 h
        have hStl : Stl.Sublist rest := by
          cases hsub with
          | cons _ h => exact (List.sublist_cons_self s1 Stl).trans h
          | cons₂ _ h => exact h
        have hchain' : List.Chain (fun a b => d < ts b - ts a) s1 Stl :=
          (List.chain_cons.mp hchain).2
        have := ih c s1 Stl hpr hStl hchain' hs1ts
        simpa using Nat.succ_le_succ this
    · -- the debouncer drops `c`
      rw [debAux, if_neg hacc]
      cases S with
      | nil => simp
      | cons s1 Stl =>
        have hgap : d < ts s1 - ts lastS := (List.chain_cons.mp hchain).1
        cases hsub with
        | cons _ h =>
          exact ih last lastS (s1 :: Stl) hpr h hchain hle
        | cons₂ _ h =>
          -- here s1 = c; but then c would have been kept
          exact absurd (by linarith : d < ts c - ts last) hacc

end Debounce

/-- Annotate a list with positions starting at `n` (used to reason about
which occurrence of a coincident click is kept). -/
def idxFrom : ℕ → List Event → List (ℕ × Event)
  | _, [] => []
  | n, e :: rest => (n, e) :: idxFrom (n + 1) rest

/-- Timestamp of an indexed click. -/
def its (p : ℕ × Event) : ℚ := p.2.timestamp

theorem idxFrom_map_snd : ∀ (n : ℕ) (l : List Event), (idxFrom n l).map Prod.snd = l := by
  intro n l
  induction l generalizing n with
  | nil => rfl
  | cons e rest ih => simp [idxFrom, ih]

theorem idxFrom_fst_ge : ∀ (n : ℕ) (l : List Event) (p : ℕ × Event),
    p ∈ idxFrom n l → n ≤ p.1 := by
  intro n l
  induction l generalizing n with
  | nil => simp [idxFrom]
  | cons e rest ih =>
    intro p hp
    rcases List.mem_cons.mp hp with rfl | hp
    · exact le_refl n
    · exact (Nat.le_succ n).trans (ih (n + 1) p hp)

theorem idxFrom_pairwise_fst : ∀ (n : ℕ) (l : List Event),
    List.Pairwise (fun p q => p.1 < q.1) (idxFrom n l) := by
  intro n l
  induction l generalizing n with
  | nil => exact List.Pairwise.nil
  | cons e rest ih =>
    refine List.pairwise_cons.mpr ⟨?_, ih (n + 1)⟩
    intro q hq
    exact Nat.lt_of_lt_of_le (Nat.lt_succ_self n) (idxFrom_fst_ge (n + 1) rest q hq)

theorem its_def (p : ℕ × Event) : its p = p.2.timestamp := rfl

theorem idxFrom_pairwise_ts : ∀ (n : ℕ) (l : List Event),
    List.Pairwise (fun a b => a.timestamp ≤ b.timestamp) l →
    List.Pairwise (fun p q => its p ≤ its q) (idxFrom n l) := by
  intro n l
  induction l generalizing n with
  | nil => intro _; exact List.Pairwise.nil
  | cons e rest ih =>
    intro h
    rcases List.pairwise_cons.mp h with ⟨he, hr⟩
    refine List.pairwise_cons.mpr ⟨?_, ih (n + 1) hr⟩
    intro q hq
    have hq2 : q.2 ∈ rest := by
      have hmap := idxFrom_map_snd (n + 1) rest
      exact hmap ▸ List.mem_map_of_mem Prod.snd hq
    exact he q.2 hq2

/-- The debouncer commutes with forgetting positions. -/
theorem debAux_map_snd (d : ℚ) : ∀ (last : ℕ × Event) (l : List (ℕ × Event)),
    (debAux its d last l).map Prod.snd = debAux Event.timestamp d last.2 (l.map Prod.snd) := by
  intro last l
  induction l generalizing last with
  | nil => rfl
  | cons c rest ih =>
    simp only [List.map_cons]
    by_cases h : d < c.2.timestamp - last.2.timestamp
    · rw [debAux, if_pos (show d < its c - its last from h), List.map_cons, ih c,
        debAux, if_pos (show d < Event.timestamp c.2 - Event.timestamp last.2 from h)]
    · rw [debAux, if_neg (show ¬d < its c - its last from h), ih last,
        debAux, if_neg (show ¬d < Event.timestamp c.2 - Event.timestamp last.2 from h)]

/-- Index-annotated version of `get_effective_clicks`. -/
def effectiveIdx (events : List Event) (cfg : ZoomConfig) : List (ℕ × Event) :=
  match idxFrom 0 (clicksOf events) with
  | [] => []
  | c :: rest => c :: debAux its cfg.debounce c rest

theorem effectiveIdx_map_snd (events : List Event) (cfg : ZoomConfig) :
    (effectiveIdx events cfg).map Prod.snd = get_effective_clicks events cfg := by
  unfold effectiveIdx get_effective_clicks
  cases h : clicksOf events with
  | nil => rfl
  | cons c rest =>
    simp only [idxFrom, List.map_cons, debAux_map_snd, idxFrom_map_snd]

/-- Greedy debouncing with a nonnegative debounce never keeps a click that
has an earlier exactly-coincident click: if `a` occurs before `b` in the
(position-annotated, timestamp-sorted) list and has the same timestamp,
then `b` is not kept. -/
theorem debAux_first_of_group (d : ℚ) (hd : 0 ≤ d) :
    ∀ (l : List (ℕ × Event)) (last : ℕ × Event),
    List.Pairwise (fun p q => its p ≤ its q) l →
    List.Pairwise (fun p q => p.1 < q.1) l →
    ∀ b ∈ debAux its d last l, ∀ a ∈ l, a.1 < b.1 → its a = its b → False := by
  intro l
  induction l with
  | nil => simp [debAux]
  | cons c rest ih =>
    intro last hts hidx b hb a ha hlt heq
    have htsr : List.Pairwise (fun p q => its p ≤ its q) rest := (List.pairwise_cons.mp hts).2
    have hidxr : List.Pairwise (fun p q => p.1 < q.1) rest := (List.pairwise_cons.mp hidx).2
    have heq2 : its a = its b := heq
    by_cases hacc : d < its c - its last
    · rw [debAux, if_pos hacc] at hb
      rcases List.mem_cons.mp hb with hbc | hb
      · -- b = c is the head: no element of the list is positioned before it
        subst hbc
        rcases List.mem_cons.mp ha with hac | ha
        · exact Nat.lt_irrefl _ (hac ▸ hlt)
        · exact Nat.lt_asymm hlt ((List.pairwise_cons.mp hidx).1 a ha)
      · rcases List.mem_cons.mp ha with hac | ha
        · -- a = c coincident with a later kept b: contradicts the strict gap
          have hgt := debAux_mem_gt its d hd c rest b hb
          rw [hac] at heq2
          linarith [heq2, hgt, hd]
        · exact ih c htsr hidxr b hb a ha hlt heq
    · rw [debAux, if_neg hacc] at hb
      rcases List.mem_cons.mp ha with hac | ha
      · -- a = c was dropped because it is within `d` of `last`; any kept b
        -- lies strictly beyond `last + d`, hence cannot be coincident with a
        have hgt := debAux_mem_gt its d hd last rest b hb
        have hle : its c - its last ≤ d := not_lt.mp hacc
        rw [hac] at heq2
        linarith [heq2, hgt, hle]
      · exact ih last htsr hidxr b hb a ha hlt heq

/-- Consecutive kept clicks are separated by strictly more than the
debounce (for any event log and any config). -/
theorem effective_chain (events : List Event) (cfg : ZoomConfig) :
    List.Chain' (gapGT cfg.debounce) (get_effective_clicks events cfg) := by
  unfold get_effective_clicks
  cases h : clicksOf events with
  | nil => simp
  | cons c rest => exact debAux_chain Event.timestamp cfg.debounce c rest

/-- With a nonnegative debounce the kept clicks have strictly increasing
timestamps. -/
theorem effective_pairwise_lt (events : List Event) (cfg : ZoomConfig)
    (hd : 0 ≤ cfg.debounce) :
    List.Pairwise (fun a b : Event => a.timestamp < b.timestamp)
      (get_effective_clicks events cfg) := by
  have hch := effective_chain events cfg
  have hch2 : List.Chain' (fun a b : Event => a.timestamp < b.timestamp)
      (get_effective_clicks events cfg) := by
    refine hch.imp ?_
    intro a b hab
    unfold gapGT at hab
    linarith
  haveI : IsTrans Event (fun a b : Event => a.timestamp < b.timestamp) :=
    ⟨fun _ _ _ h1 h2 => lt_trans h1 h2⟩
  exact List.chain'_iff_pairwise.mp hch2

/-- Two exactly coincident clicks. -/
def coincEv : Event := { x := 0, y := 0, timestamp := 0, eventType := .LeftClick }

/-- A configuration with a negative debounce value. -/
def negDebounceConfig : ZoomConfig := { defaultZoomConfig with debounce := -1 }

/-- C1 counterexample: with a negative debounce, two exactly coincident
clicks are BOTH kept by `get_effective_clicks`, so "among clicks with
exactly coincident timestamps only the first is kept" fails for this
config; the claim does not hold for every config. -/
theorem effective_clicks_coincident_cex :
    get_effective_clicks [coincEv, coincEv] negDebounceConfig = [coincEv, coincEv] ∧
    get_effective_clicks [coincEv, coincEv] negDebounceConfig ≠ [coincEv] := by
  have hmain : get_effective_clicks [coincEv, coincEv] negDebounceConfig
      = [coincEv, coincEv] := by
    norm_num [get_effective_clicks, clicksOf, List.filter, coincEv, negDebounceConfig,
      defaultZoomConfig, Event.isClick, debAux]
  refine ⟨hmain, ?_⟩
  rw [hmain]
  simp

/-- C1 (amended): for a timestamp-sorted event log, `get_effective_clicks`
returns a subsequence of the click events that (i) starts with the first
click, (ii) has consecutive kept timestamps separated by strictly more
than `config.debounce`, (iii) is at least as long as every such
subsequence (it is the longest prefix-closed one), and (iv) provided
`config.debounce ≥ 0`, never keeps a click that has an earlier exactly
coincident click (only the first of a coincident group is kept). -/
theorem effective_clicks_spec (events : List Event) (cfg : ZoomConfig)
    (hsort : List.Pairwise (fun a b => a.timestamp ≤ b.timestamp) events) :
    (get_effective_clicks events cfg).Sublist (clicksOf events) ∧
    (get_effective_clicks events cfg).head? = (clicksOf events).head? ∧
    List.Chain' (gapGT cfg.debounce) (get_effective_clicks events cfg) ∧
    (∀ S : List Event, S.Sublist (clicksOf events) →
      List.Chain' (gapGT cfg.debounce) S →
      S.length ≤ (get_effective_clicks events cfg).length) ∧
    (0 ≤ cfg.debounce →
      ∀ b ∈ effectiveIdx events cfg, ∀ a ∈ idxFrom 0 (clicksOf events),
        a.1 < b.1 → a.2.timestamp = b.2.timestamp → False) := by
  have hsortc : List.Pairwise (fun a b => a.timestamp ≤ b.timestamp) (clicksOf events) :=
    List.Pairwise.sublist (List.filter_sublist events) hsort
  refine ⟨?_, ?_, ?_, ?_, ?_⟩
  · -- subsequence of the clicks
    unfold get_effective_clicks
    cases h : clicksOf events with
    | nil => simp
    | cons c rest => exact (debAux_sublist Event.timestamp cfg.debounce c rest).cons₂ c
  · -- the first click is always kept
    unfold get_effective_clicks
    cases h : clicksOf events with
    | nil => rfl
    | cons c rest => rfl
  · -- consecutive kept gaps strictly exceed the debounce
    exact effective_chain events cfg
  · -- longest among all valid subsequences of the clicks
    intro S hsub hchain
    unfold get_effective_clicks
    cases h : clicksOf events with
    | nil =>
      rw [h] at hsub
      simp [List.sublist_nil.mp hsub]
    | cons c rest =>
      rw [h] at hsub hsortc
      cases S with
      | nil => simp
      | cons s1 Stl =>
        have hs1mem : s1 ∈ c :: rest := hsub.subset (List.mem_cons_self s1 Stl)
        have hs1ts : c.timestamp ≤ s1.timestamp := by
          rcases List.mem_cons.mp hs1mem with h1 | h1
          · simp [h1]
          · exact (List.pairwise_cons.mp hsortc).1 s1 h1
        have hStl : Stl.Sublist rest := by
          cases hsub with
          | cons _ hsub2 => exact (List.sublist_cons_self s1 Stl).trans hsub2
          | cons₂ _ hsub2 => exact hsub2
        have hch : List.Chain (fun a b =>
            cfg.debounce < Event.timestamp b - Event.timestamp a) s1 Stl := hchain
        have hlen := debAux_maximal Event.timestamp cfg.debounce rest c s1 Stl
          (List.pairwise_cons.mp hsortc).2 hStl hch hs1ts
        simpa using Nat.succ_le_succ hlen
  · -- only the first of a coincident group is kept (debounce ≥ 0)
    intro hd b hb a ha hlt heq
    have heq2 : its a = its b := heq
    unfold effectiveIdx at hb
    cases h : clicksOf events with
    | nil =>
      rw [h] at hb
      simp [idxFrom] at hb
    | cons c rest =>
      rw [h] at hb ha hsortc
      simp only [idxFrom] at hb ha
      rcases List.mem_cons.mp hb with hbc | hb
      · -- b is the head, at position 0: nothing is positioned before it
        subst hbc
        exact Nat.not_lt_zero a.1 hlt
      · rcases List.mem_cons.mp ha with hac | ha
        · -- a is the coincident head: contradicts the kept strict gap
          have hgt := debAux_mem_gt its cfg.debounce hd (0, c) (idxFrom (0 + 1) rest) b hb
          rw [hac] at heq2
          linarith [heq2, hgt, hd]
        · exact debAux_first_of_group cfg.debounce hd (idxFrom (0 + 1) rest) (0, c)
            (idxFrom_pairwise_ts (0 + 1) rest (List.pairwise_cons.mp hsortc).2)
            (idxFrom_pairwise_fst (0 + 1) rest) b hb a ha hlt heq

/-- A sorted three-click log: the second click is within the default
debounce of the first, the third is not. -/
def wEvents : List Event :=
  [{ x := 10, y := 10, timestamp := 0, eventType := .LeftClick },
   { x := 20, y := 20, timestamp := 3/10, eventType := .LeftClick },
   { x := 30, y := 30, timestamp := 1, eventType := .LeftClick }]

theorem effective_clicks_spec_witness :
    List.Pairwise (fun a b : Event => a.timestamp ≤ b.timestamp) wEvents ∧
    ((get_effective_clicks wEvents defaultZoomConfig).Sublist (clicksOf wEvents) ∧
     (get_effective_clicks wEvents defaultZoomConfig).head? = (clicksOf wEvents).head? ∧
     List.Chain' (gapGT defaultZoomConfig.debounce)
       (get_effective_clicks wEvents defaultZoomConfig) ∧
     (∀ S : List Event, S.Sublist (clicksOf wEvents) →
       List.Chain' (gapGT defaultZoomConfig.debounce) S →
       S.length ≤ (get_effective_clicks wEvents defaultZoomConfig).length) ∧
     (0 ≤ defaultZoomConfig.debounce →
       ∀ b ∈ effectiveIdx wEvents defaultZoomConfig, ∀ a ∈ idxFrom 0 (clicksOf wEvents),
         a.1 < b.1 → a.2.timestamp = b.2.timestamp → False)) :=
  ⟨by norm_num [wEvents], effective_clicks_spec wEvents defaultZoomConfig (by norm_num [wEvents])⟩

/-! ### The zoom/pan trajectory planner (`calculate_zoom`, `processing/zoom.rs`) -/

/-- `lerp` (`processing/zoom.rs`). -/
def lerp (a b t : ℚ) : ℚ := a + (b - a) * t

/-- `ease_out_cubic` (`processing/zoom.rs`). -/
def ease_out_cubic (t : ℚ) : ℚ := 1 - (1 - t) ^ 3

/-- `ease_in_cubic` (`processing/zoom.rs`). -/
def ease_in_cubic (t : ℚ) : ℚ := t * t * t

/-- `ease_in_out_cubic` (`processing/zoom.rs`). -/
def ease_in_out_cubic (t : ℚ) : ℚ :=
  if t < 1/2 then 4 * t * t * t else 1 - (-2 * t + 2) ^ 3 / 2

/-- Rust `f64::clamp v lo hi` (for `lo ≤ hi`). -/
def rclamp (v lo hi : ℚ) : ℚ := min (max v lo) hi

/-- `pan_start_time = (prev.timestamp + config.hold).min(next.timestamp - config.ease_in)`
(zoom.rs line 107). -/
def panStart (cfg : ZoomConfig) (prev next : Event) : ℚ :=
  min (prev.timestamp + cfg.hold) (next.timestamp - cfg.ease_in)

/-- `pan_progress = (pan_elapsed / pan_duration).clamp(0.0, 1.0)`
(zoom.rs lines 109-111). -/
def panProgress (timestamp : ℚ) (cfg : ZoomConfig) (prev next : Event) : ℚ :=
  rclamp ((timestamp - panStart cfg prev next) / (next.timestamp - panStart cfg prev next)) 0 1

/-- The body of `calculate_zoom`'s pan branch: both effective clicks exist
and their gap is within the pan window (zoom.rs lines 96-120). -/
def calcZoomPan (timestamp : ℚ) (cfg : ZoomConfig) (prev next : Event) : ℚ × ℚ × ℚ :=
  if timestamp - prev.timestamp ≤ cfg.hold ∧ cfg.ease_in < next.timestamp - timestamp then
    (cfg.max_zoom, prev.x, prev.y)
  else if panStart cfg prev next ≤ timestamp then
    (cfg.max_zoom,
      lerp prev.x next.x (ease_in_out_cubic (panProgress timestamp cfg prev next)),
      lerp prev.y next.y (ease_in_out_cubic (panProgress timestamp cfg prev next)))
  else
    (cfg.max_zoom, prev.x, prev.y)

/-- Hold / zoom-out / idle tail of `calculate_zoom` (zoom.rs lines 123-136). -/
def calcZoomHoldOrOut (timestamp : ℚ) (cfg : ZoomConfig) (prev : Event)
    (defaultPos : ℚ × ℚ) : ℚ × ℚ × ℚ :=
  if timestamp - prev.timestamp ≤ cfg.hold then
    (cfg.max_zoom, prev.x, prev.y)
  else if timestamp - prev.timestamp ≤ cfg.hold + cfg.ease_out then
    (cfg.max_zoom -
      (cfg.max_zoom - 1) * ease_in_cubic ((timestamp - prev.timestamp - cfg.hold) / cfg.ease_out),
      prev.x, prev.y)
  else
    (1, defaultPos.1, defaultPos.2)

/-- "Case 2 / Case 3" of `calculate_zoom`: at or after a previous click, or
idle (zoom.rs lines 88-136). -/
def calcZoomAfter (timestamp : ℚ) (cfg : ZoomConfig) (prev? next? : Option Event)
    (defaultPos : ℚ × ℚ) : ℚ × ℚ × ℚ :=
  match prev? with
  | some prev =>
    (match next? with
     | some next =>
       if next.timestamp - prev.timestamp ≤ panWindow cfg then
         calcZoomPan timestamp cfg prev next
       else
         calcZoomHoldOrOut timestamp cfg prev defaultPos
     | none => calcZoomHoldOrOut timestamp cfg prev defaultPos)
  | none => (1, defaultPos.1, defaultPos.2)

/-- The case dispatch of `calculate_zoom` (zoom.rs lines 60-136) over the
already-computed previous/next effective clicks and default position:
"Case 1" anticipatory zoom-in, falling through to "Case 2/3". -/
def calcZoomMain (timestamp : ℚ) (cfg : ZoomConfig) (prev? next? : Option Event)
    (defaultPos : ℚ × ℚ) : ℚ × ℚ × ℚ :=
  match next? with
  | some next =>
    if 0 < next.timestamp - timestamp ∧ next.timestamp - timestamp ≤ cfg.ease_in then
      match prev? with
      | some prev =>
        if next.timestamp - prev.timestamp ≤ panWindow cfg then
          (max (1 + (cfg.max_zoom - 1) *
              ease_out_cubic (1 - (next.timestamp - timestamp) / cfg.ease_in)) cfg.max_zoom,
            lerp prev.x next.x
              (ease_in_out_cubic (1 - (next.timestamp - timestamp) / cfg.ease_in)),
            lerp prev.y next.y
              (ease_in_out_cubic (1 - (next.timestamp - timestamp) / cfg.ease_in)))
        else
          (1 + (cfg.max_zoom - 1) *
              ease_out_cubic (1 - (next.timestamp - timestamp) / cfg.ease_in),
            next.x, next.y)
      | none =>
        (1 + (cfg.max_zoom - 1) *
            ease_out_cubic (1 - (next.timestamp - timestamp) / cfg.ease_in),
          next.x, next.y)
    else
      calcZoomAfter timestamp cfg prev? next? defaultPos
  | none => calcZoomAfter timestamp cfg prev? next? defaultPos

/-- `calculate_zoom` (`processing/zoom.rs` lines 32-137): returns
`(zoom, focus_x, focus_y)` for a timestamp. -/
def calculate_zoom (timestamp : ℚ) (events : List Event) (cfg : ZoomConfig) : ℚ × ℚ × ℚ :=
  let effective := get_effective_clicks events cfg
  let prev? := (effective.filter (fun c => c.timestamp ≤ timestamp)).getLast?
  let next? := effective.find? (fun c => timestamp < c.timestamp)
  let defaultPos : ℚ × ℚ :=
    match (events.filter (fun e => e.timestamp ≤ timestamp)).getLast? with
    | some e => (e.x, e.y)
    | none => (0, 0)
  calcZoomMain timestamp cfg prev? next? defaultPos

/-- Bounds of the anticipatory zoom value `1 + (max_zoom - 1) * ease_out_cubic p`
with `p = 1 - time_to_next / ease_in` and `0 < time_to_next ≤ ease_in`. -/
theorem anticipatory_zoom_bounds (cfg : ZoomConfig) (hM : 1 ≤ cfg.max_zoom)
    (he : 0 < cfg.ease_in) (ttn : ℚ) (h0 : 0 < ttn) (hle : ttn ≤ cfg.ease_in) :
    1 ≤ 1 + (cfg.max_zoom - 1) * ease_out_cubic (1 - ttn / cfg.ease_in) ∧
    1 + (cfg.max_zoom - 1) * ease_out_cubic (1 - ttn / cfg.ease_in) ≤ cfg.max_zoom := by
  have hq0 : 0 < ttn / cfg.ease_in := div_pos h0 he
  have hq1 : ttn / cfg.ease_in ≤ 1 := (div_le_one he).mpr hle
  have hcube_pos : 0 < (ttn / cfg.ease_in) ^ 3 := pow_pos hq0 3
  have hcube_le : (ttn / cfg.ease_in) ^ 3 ≤ 1 := by
    nlinarith [sq_nonneg (ttn / cfg.ease_in), sq_nonneg (1 - ttn / cfg.ease_in)]
  unfold ease_out_cubic
  constructor <;> nlinarith

/-- Every branch of the pan case returns exactly `max_zoom` as the zoom. -/
theorem calcZoomPan_zoom (t : ℚ) (cfg : ZoomConfig) (prev next : Event) :
    (calcZoomPan t cfg prev next).1 = cfg.max_zoom := by
  unfold calcZoomPan
  split_ifs <;> rfl

theorem calcZoomHoldOrOut_bounds (t : ℚ) (cfg : ZoomConfig) (prev : Event) (dp : ℚ × ℚ)
    (hM : 1 ≤ cfg.max_zoom) (ho : 0 < cfg.ease_out) :
    1 ≤ (calcZoomHoldOrOut t cfg prev dp).1 ∧
    (calcZoomHoldOrOut t cfg prev dp).1 ≤ cfg.max_zoom := by
  unfold calcZoomHoldOrOut
  split_ifs with h1 h2
  · exact ⟨hM, le_refl _⟩
  · -- zoom-out phase: progress lies in (0, 1]
    have hq0 : 0 < (t - prev.timestamp - cfg.hold) / cfg.ease_out :=
      div_pos (by linarith [not_le.mp h1]) ho
    have hq1 : (t - prev.timestamp - cfg.hold) / cfg.ease_out ≤ 1 :=
      (div_le_one ho).mpr (by linarith)
    have hc : ((t - prev.timestamp - cfg.hold) / cfg.ease_out) *
        ((t - prev.timestamp - cfg.hold) / cfg.ease_out) *
        ((t - prev.timestamp - cfg.hold) / cfg.ease_out) ≤ 1 := by nlinarith
    have hcp : 0 < ((t - prev.timestamp - cfg.hold) / cfg.ease_out) *
        ((t - prev.timestamp - cfg.hold) / cfg.ease_out) *
        ((t - prev.timestamp - cfg.hold) / cfg.ease_out) := by positivity
    constructor
    · show (1:ℚ) ≤ cfg.max_zoom - (cfg.max_zoom - 1) *
        ease_in_cubic ((t - prev.timestamp - cfg.hold) / cfg.ease_out)
      unfold ease_in_cubic
      nlinarith
    · show cfg.max_zoom - (cfg.max_zoom - 1) *
        ease_in_cubic ((t - prev.timestamp - cfg.hold) / cfg.ease_out) ≤ cfg.max_zoom
      unfold ease_in_cubic
      nlinarith
  · exact ⟨le_refl 1, hM⟩

theorem calcZoomAfter_bounds (t : ℚ) (cfg : ZoomConfig) (prev? next? : Option Event)
    (dp : ℚ × ℚ) (hM : 1 ≤ cfg.max_zoom) (ho : 0 < cfg.ease_out) :
    1 ≤ (calcZoomAfter t cfg prev? next? dp).1 ∧
    (calcZoomAfter t cfg prev? next? dp).1 ≤ cfg.max_zoom := by
  unfold calcZoomAfter
  cases prev? with
  | none => cases next? <;> exact ⟨le_refl 1, hM⟩
  | some prev =>
    cases next? with
    | none => exact calcZoomHoldOrOut_bounds t cfg prev dp hM ho
    | some next =>
      dsimp only
      by_cases hgap : next.timestamp - prev.timestamp ≤ panWindow cfg
      · rw [if_pos hgap, calcZoomPan_zoom]
        exact ⟨hM, le_refl _⟩
      · rw [if_neg hgap]
        exact calcZoomHoldOrOut_bounds t cfg prev dp hM ho

theorem calcZoomMain_bounds (t : ℚ) (cfg : ZoomConfig) (prev? next? : Option Event)
    (dp : ℚ × ℚ) (hM : 1 ≤ cfg.max_zoom) (he : 0 < cfg.ease_in) (ho : 0 < cfg.ease_out) :
    1 ≤ (calcZoomMain t cfg prev? next? dp).1 ∧
    (calcZoomMain t cfg prev? next? dp).1 ≤ cfg.max_zoom := by
  unfold calcZoomMain
  cases next? with
  | none => exact calcZoomAfter_bounds t cfg prev? none dp hM ho
  | some next =>
    dsimp only
    by_cases hant : 0 < next.timestamp - t ∧ next.timestamp - t ≤ cfg.ease_in
    · rw [if_pos hant]
      obtain ⟨hz1, hz2⟩ :=
        anticipatory_zoom_bounds cfg hM he (next.timestamp - t) hant.1 hant.2
      cases prev? with
      | none => exact ⟨hz1, hz2⟩
      | some prev =>
        dsimp only
        by_cases hgap : next.timestamp - prev.timestamp ≤ panWindow cfg
        · rw [if_pos hgap]
          exact ⟨le_trans hM (le_max_right _ _), max_le hz2 (le_refl _)⟩
        · rw [if_neg hgap]
          exact ⟨hz1, hz2⟩
    · rw [if_neg hant]
      exact calcZoomAfter_bounds t cfg prev? (some next) dp hM ho

/-- C3: for every event log and every config with `max_zoom ≥ 1` and
positive `ease_in`, `hold`, `ease_out`, `debounce`, the zoom component of
`calculate_zoom` lies in `[1, max_zoom]` at every timestamp. -/
theorem calculate_zoom_range (t : ℚ) (events : List Event) (cfg : ZoomConfig)
    (hM : 1 ≤ cfg.max_zoom) (he : 0 < cfg.ease_in) (hh : 0 < cfg.hold)
    (ho : 0 < cfg.ease_out) (hd : 0 < cfg.debounce) :
    1 ≤ (calculate_zoom t events cfg).1 ∧
    (calculate_zoom t events cfg).1 ≤ cfg.max_zoom := by
  unfold calculate_zoom
  exact calcZoomMain_bounds t cfg _ _ _ hM he ho

theorem calculate_zoom_range_witness :
    ((1:ℚ) ≤ defaultZoomConfig.max_zoom ∧ 0 < defaultZoomConfig.ease_in ∧
      0 < defaultZoomConfig.hold ∧ 0 < defaultZoomConfig.ease_out ∧
      0 < defaultZoomConfig.debounce) ∧
    (1 ≤ (calculate_zoom 2 wEvents defaultZoomConfig).1 ∧
      (calculate_zoom 2 wEvents defaultZoomConfig).1 ≤ defaultZoomConfig.max_zoom) :=
  ⟨by norm_num [defaultZoomConfig],
    calculate_zoom_range 2 wEvents defaultZoomConfig
      (by norm_num [defaultZoomConfig]) (by norm_num [defaultZoomConfig])
      (by norm_num [defaultZoomConfig]) (by norm_num [defaultZoomConfig])
      (by norm_num [defaultZoomConfig])⟩

/-- The last filtered element of `l1 ++ a :: l2` is `a` when `a` satisfies
the predicate and nothing in `l2` does. -/
theorem filter_getLast?_decomp {α : Type} (p : α → Bool) (l1 l2 : List α) (a : α)
    (ha : p a = true) (h2 : ∀ x ∈ l2, p x = false) :
    ((l1 ++ a :: l2).filter p).getLast? = some a := by
  have hl2 : l2.filter p = [] := by
    rw [List.filter_eq_nil_iff]
    intro x hx
    simp [h2 x hx]
  rw [List.filter_append, List.filter_cons_of_pos ha, hl2]
  exact List.getLast?_concat _

/-- `find?` over `l1 ++ a :: l2` returns `a` when nothing in `l1` matches
and `a` does. -/
theorem find?_decomp {α : Type} (p : α → Bool) (l1 l2 : List α) (a : α)
    (h1 : ∀ x ∈ l1, p x = false) (ha : p a = true) :
    (l1 ++ a :: l2).find? p = some a := by
  induction l1 with
  | nil =>
    rw [List.nil_append]
    simp [List.find?, ha]
  | cons x xs ih =>
    simp only [List.cons_append, List.find?, h1 x (List.mem_cons_self x xs)]
    exact ih fun y hy => h1 y (List.mem_cons_of_mem x hy)

/-- C2: with the default configuration, between two consecutive effective
clicks whose gap is within the pan window, the zoom component of
`calculate_zoom` is at least `max_zoom` at every timestamp in
`[prev.timestamp, next.timestamp]`. -/
theorem pan_consistency (events : List Event) (l1 l2 : List Event) (prev next : Event)
    (t : ℚ)
    (hdec : get_effective_clicks events defaultZoomConfig = l1 ++ prev :: next :: l2)
    (hgap : next.timestamp - prev.timestamp ≤ panWindow defaultZoomConfig)
    (ht1 : prev.timestamp ≤ t) (ht2 : t ≤ next.timestamp) :
    defaultZoomConfig.max_zoom ≤ (calculate_zoom t events defaultZoomConfig).1 := by
  have hpw := effective_pairwise_lt events defaultZoomConfig (by norm_num [defaultZoomConfig])
  rw [hdec] at hpw
  have hchain := effective_chain events defaultZoomConfig
  rw [hdec] at hchain
  -- ordering facts from the decomposition
  obtain ⟨hpw1, hpw2, hpw12⟩ := List.pairwise_append.mp hpw
  have hl1prev : ∀ x ∈ l1, x.timestamp < prev.timestamp := fun x hx =>
    hpw12 x hx prev (List.mem_cons_self _ _)
  have hprevnext : prev.timestamp < next.timestamp :=
    (List.pairwise_cons.mp hpw2).1 next (List.mem_cons_self _ _)
  have hl2next : ∀ x ∈ l2, next.timestamp < x.timestamp := fun x hx =>
    (List.pairwise_cons.mp (List.pairwise_cons.mp hpw2).2).1 x hx
  unfold calculate_zoom
  rw [hdec]
  dsimp only
  rcases lt_or_eq_of_le ht2 with htlt | hteq
  · -- Case A: prev.timestamp ≤ t < next.timestamp
    have hprev? : ((l1 ++ prev :: next :: l2).filter
        (fun c => c.timestamp ≤ t)).getLast? = some prev := by
      refine filter_getLast?_decomp _ l1 (next :: l2) prev (by simpa using ht1) ?_
      intro x hx
      rcases List.mem_cons.mp hx with rfl | hx
      · simpa using not_le.mpr htlt
      · simpa using not_le.mpr (lt_trans htlt (hl2next x hx))
    have hnext? : (l1 ++ prev :: next :: l2).find? (fun c => t < c.timestamp)
        = some next := by
      have hre : l1 ++ prev :: next :: l2 = (l1 ++ [prev]) ++ next :: l2 := by simp
      rw [hre]
      refine find?_decomp _ (l1 ++ [prev]) l2 next ?_ (by simpa using htlt)
      intro x hx
      rcases List.mem_append.mp hx with hx | hx
      · simpa using not_lt.mpr (le_of_lt (lt_of_lt_of_le (hl1prev x hx) ht1))
      · rcases List.mem_singleton.mp hx with rfl
        simpa using not_lt.mpr ht1
    rw [hprev?, hnext?]
    unfold calcZoomMain
    dsimp only
    by_cases hant : 0 < next.timestamp - t ∧ next.timestamp - t ≤ defaultZoomConfig.ease_in
    · rw [if_pos hant, if_pos hgap]
      exact le_max_right _ _
    · rw [if_neg hant]
      unfold calcZoomAfter
      dsimp only
      rw [if_pos hgap, calcZoomPan_zoom]
  · -- Case B: t = next.timestamp
    have hprev? : ((l1 ++ prev :: next :: l2).filter
        (fun c => c.timestamp ≤ t)).getLast? = some next := by
      have hre : l1 ++ prev :: next :: l2 = (l1 ++ [prev]) ++ next :: l2 := by simp
      rw [hre]
      refine filter_getLast?_decomp _ (l1 ++ [prev]) l2 next (by simp [hteq]) ?_
      intro x hx
      simpa using not_le.mpr (hteq ▸ hl2next x hx)
    rw [hprev?]
    cases hl2 : l2 with
    | nil =>
      rw [hl2] at hl2next
      have hnext? : (l1 ++ prev :: next :: ([] : List Event)).find?
          (fun c => t < c.timestamp) = none := by
        rw [List.find?_eq_none]
        intro x hx
        simp only [decide_eq_true_eq, not_lt]
        rcases List.mem_append.mp hx with hx | hx
        · exact le_of_lt (lt_of_lt_of_le (hl1prev x hx) ht1)
        · rcases List.mem_cons.mp hx with rfl | hx
          · exact ht1
          · rcases List.mem_cons.mp hx with rfl | hx
            · exact le_of_eq hteq.symm
            · simp at hx
      rw [hnext?]
      unfold calcZoomMain calcZoomAfter
      dsimp only
      unfold calcZoomHoldOrOut
      rw [if_pos (show t - next.timestamp ≤ defaultZoomConfig.hold by
        rw [hteq]; norm_num [defaultZoomConfig])]
    | cons n2 l2tl =>
      rw [hl2] at hl2next hchain
      have hg2 : gapGT defaultZoomConfig.debounce next n2 := by
        have := (List.chain'_append.mp hchain).2.1
        exact (List.chain'_cons.mp (List.chain'_cons.mp this).2).1
      have hn2 : next.timestamp + 1/2 < n2.timestamp := by
        unfold gapGT at hg2
        norm_num [defaultZoomConfig] at hg2
        linarith
      have hnext? : (l1 ++ prev :: next :: n2 :: l2tl).find?
          (fun c => t < c.timestamp) = some n2 := by
        have hre : l1 ++ prev :: next :: n2 :: l2tl
            = (l1 ++ [prev, next]) ++ n2 :: l2tl := by simp
        rw [hre]
        refine find?_decomp _ (l1 ++ [prev, next]) l2tl n2 ?_ (by
          simp only [decide_eq_true_eq]
          linarith [hteq])
        intro x hx
        simp only [decide_eq_false_iff_not, not_lt]
        rcases List.mem_append.mp hx with hx | hx
        · exact le_of_lt (lt_of_lt_of_le (hl1prev x hx) ht1)
        · rcases List.mem_cons.mp hx with rfl | hx
          · exact ht1
          · rcases List.mem_cons.mp hx with rfl | hx
            · exact le_of_eq hteq.symm
            · simp at hx
      rw [hnext?]
      unfold calcZoomMain
      dsimp only
      by_cases hant : 0 < n2.timestamp - t ∧ n2.timestamp - t ≤ defaultZoomConfig.ease_in
      · rw [if_pos hant]
        have hgap2 : n2.timestamp - next.timestamp ≤ panWindow defaultZoomConfig := by
          have h2 := hant.2
          rw [← hteq]
          have hpw5 : panWindow defaultZoomConfig = 27/5 := by
            norm_num [panWindow, defaultZoomConfig]
          rw [hpw5]
          norm_num [defaultZoomConfig] at h2
          linarith
        rw [if_pos hgap2]
        exact le_max_right _ _
      · rw [if_neg hant]
        unfold calcZoomAfter
        dsimp only
        by_cases hgap2 : n2.timestamp - next.timestamp ≤ panWindow defaultZoomConfig
        · rw [if_pos hgap2, calcZoomPan_zoom]
        · rw [if_neg hgap2]
          unfold calcZoomHoldOrOut
          rw [if_pos (by rw [← hteq]; norm_num [defaultZoomConfig] : t - next.timestamp ≤ defaultZoomConfig.hold)]

/-- First pan-witness click. -/
def pe1 : Event := { x := 100, y := 100, timestamp := 1, eventType := .LeftClick }

/-- Second pan-witness click, 3 s after the first (within the 5.4 s pan window). -/
def pe2 : Event := { x := 200, y := 200, timestamp := 4, eventType := .LeftClick }

theorem pan_consistency_witness :
    (get_effective_clicks [pe1, pe2] defaultZoomConfig = [] ++ pe1 :: pe2 :: [] ∧
     pe2.timestamp - pe1.timestamp ≤ panWindow defaultZoomConfig ∧
     pe1.timestamp ≤ (2:ℚ) ∧ (2:ℚ) ≤ pe2.timestamp) ∧
    defaultZoomConfig.max_zoom ≤ (calculate_zoom 2 [pe1, pe2] defaultZoomConfig).1 :=
  ⟨⟨by norm_num [get_effective_clicks, clicksOf, List.filter, pe1, pe2, Event.isClick,
      debAux, defaultZoomConfig],
    by norm_num [panWindow, defaultZoomConfig, pe1, pe2],
    by norm_num [pe1], by norm_num [pe2]⟩,
   pan_consistency [pe1, pe2] [] [] pe1 pe2 2
     (by norm_num [get_effective_clicks, clicksOf, List.filter, pe1, pe2, Event.isClick,
       debAux, defaultZoomConfig])
     (by norm_num [panWindow, defaultZoomConfig, pe1, pe2])
     (by norm_num [pe1]) (by norm_num [pe2])⟩

/-! ### Fixed-point zoom (`apply_zoom`, `processing/effects.rs`) -/

/-- The view rectangle computed by `apply_zoom` (effects.rs lines 251-271):
`(view_left, view_top, view_width, view_height)`.  Both axes use the same
`zoom_factor = 1 - 1/zoom`; the offsets are clamped to the valid range. -/
def applyZoomRect (W H z fx fy : ℚ) : ℚ × ℚ × ℚ × ℚ :=
  (rclamp (fx * (1 - 1 / z)) 0 (max (W - W / z) 0),
   rclamp (fy * (1 - 1 / z)) 0 (max (H - H / z) 0),
   W / z, H / z)

/-- Rust `f64 as u32` for the in-range values used by `apply_zoom`:
truncate toward zero (a negative value saturates to 0). -/
def f64AsU32 (v : ℚ) : ℕ := Int.toNat ⌊v⌋

/-- Where a source point `(px, py)` appears in the output of the
program's crop-and-resize: `crop_imm` receives the view rectangle as
`u32`, so the crop happens at the truncated coordinates
`(⌊left⌋, ⌊top⌋)` with the truncated size `(⌊vw⌋, ⌊vh⌋)`, and
`resize_exact` then scales by `W / ⌊vw⌋` and `H / ⌊vh⌋`
(effects.rs lines 274-281). -/
def cropResizePointU32 (left top vw vh W H px py : ℚ) : ℚ × ℚ :=
  ((px - (f64AsU32 left : ℚ)) * (W / (f64AsU32 vw : ℚ)),
   (py - (f64AsU32 top : ℚ)) * (H / (f64AsU32 vh : ℚ)))

/-- The spec's idealized crop-and-resize transform at exact
(untruncated) real coordinates (spec §4.6: "Crop and resize
(view_w × view_h) back to (W, H)"), to be compared with the program's
`u32`-truncated crop `cropResizePointU32`. -/
def cropResizePointExact (left top vw vh W H px py : ℚ) : ℚ × ℚ :=
  ((px - left) * (W / vw), (py - top) * (H / vh))

/-- `⌊v⌋` as `u32` under-approximates a nonnegative `v`. -/
theorem f64AsU32_le (v : ℚ) (hv : 0 ≤ v) : ((f64AsU32 v : ℕ) : ℚ) ≤ v := by
  unfold f64AsU32
  have h0 : (0 : ℤ) ≤ ⌊v⌋ := Int.floor_nonneg.mpr hv
  have h2 : ((⌊v⌋.toNat : ℕ) : ℚ) = ((⌊v⌋ : ℤ) : ℚ) := by
    exact_mod_cast congrArg (fun n : ℤ => (n : ℚ)) (Int.toNat_of_nonneg h0)
  rw [h2]
  exact Int.floor_le v

/-- C4 counterexample: at `W = 1920`, `H = 1080`, `z = 1.5` and focus
`(959.9, 540)` — both clamps inactive — the program's `u32`-truncated
crop-and-resize sends the focus x-coordinate to
`(959.9 - ⌊319.96⌋) · 1920/1280 = 961.35`, an error of `1.45 > 1`
pixels, refuting the claimed 1-pixel fixed-point bound on the code. -/
theorem apply_zoom_fixed_point_cex :
    (0 ≤ (9599/10 : ℚ) * (1 - 1 / (3/2)) ∧
     (9599/10 : ℚ) * (1 - 1 / (3/2)) ≤ 1920 - 1920 / (3/2) ∧
     0 ≤ (540 : ℚ) * (1 - 1 / (3/2)) ∧
     (540 : ℚ) * (1 - 1 / (3/2)) ≤ 1080 - 1080 / (3/2)) ∧
    1 < |(cropResizePointU32 (applyZoomRect 1920 1080 (3/2) (9599/10) 540).1
      (applyZoomRect 1920 1080 (3/2) (9599/10) 540).2.1
      (1920 / (3/2)) (1080 / (3/2)) 1920 1080 (9599/10) 540).1 - 9599/10| := by
  constructor
  · norm_num
  · have h1 : (applyZoomRect 1920 1080 (3/2) (9599/10) 540).1 = 9599/30 := by
      norm_num [applyZoomRect, rclamp]
    have h2 : f64AsU32 (9599/30 : ℚ) = 319 := by
      have hf : ⌊(9599/30 : ℚ)⌋ = 319 := by
        rw [Int.floor_eq_iff]
        norm_num
      rw [f64AsU32, hf]
      rfl
    have h3 : f64AsU32 (1920 / (3/2) : ℚ) = 1280 := by
      have hf : ⌊(1920 / (3/2) : ℚ)⌋ = 1280 := by
        rw [Int.floor_eq_iff]
        norm_num
      rw [f64AsU32, hf]
      rfl
    rw [cropResizePointU32]
    dsimp only
    rw [h1, h2, h3]
    rw [show |(9599/10 - ((319 : ℕ) : ℚ)) * (1920 / ((1280 : ℕ) : ℚ)) - 9599/10| = 29/20 by
      norm_num]
    norm_num

/-- C4 (amended): `apply_zoom` computes `view_w = W/z`, `view_h = H/z`,
`f = 1 - 1/z`, `view_left = clamp(fx·f, 0, W - view_w)`,
`view_top = clamp(fy·f, 0, H - view_h)` with the same factor `f` on both
axes.  When neither clamp is active, the crop-and-resize transform at
these exact coordinates maps the focus `(fx, fy)` back to itself exactly,
while the program's crop — `crop_imm` truncates the rectangle to `u32` —
maps the focus to
`fx + fx·frac(view_w)/⌊view_w⌋ + frac(view_left)·W/⌊view_w⌋` (and
similarly in y): a displacement that is always ≥ 0 but can exceed one
pixel. -/
theorem apply_zoom_fixed_point (W H z fx fy : ℚ) (hz : 1 < z) (hW : 0 < W) (hH : 0 < H)
    (hx0 : 0 ≤ fx * (1 - 1 / z)) (hx1 : fx * (1 - 1 / z) ≤ W - W / z)
    (hy0 : 0 ≤ fy * (1 - 1 / z)) (hy1 : fy * (1 - 1 / z) ≤ H - H / z)
    (hvw : 1 ≤ f64AsU32 (W / z)) (hvh : 1 ≤ f64AsU32 (H / z)) :
    (applyZoomRect W H z fx fy).1 = rclamp (fx * (1 - 1 / z)) 0 (W - W / z) ∧
    (applyZoomRect W H z fx fy).2.1 = rclamp (fy * (1 - 1 / z)) 0 (H - H / z) ∧
    (applyZoomRect W H z fx fy).2.2.1 = W / z ∧
    (applyZoomRect W H z fx fy).2.2.2 = H / z ∧
    (cropResizePointExact (applyZoomRect W H z fx fy).1 (applyZoomRect W H z fx fy).2.1
      (W / z) (H / z) W H fx fy).1 = fx ∧
    (cropResizePointExact (applyZoomRect W H z fx fy).1 (applyZoomRect W H z fx fy).2.1
      (W / z) (H / z) W H fx fy).2 = fy ∧
    (cropResizePointU32 (applyZoomRect W H z fx fy).1 (applyZoomRect W H z fx fy).2.1
      (W / z) (H / z) W H fx fy).1
      = fx + fx * (W / z - (f64AsU32 (W / z) : ℚ)) / (f64AsU32 (W / z) : ℚ)
        + (fx * (1 - 1 / z) - (f64AsU32 (fx * (1 - 1 / z)) : ℚ)) *
          (W / (f64AsU32 (W / z) : ℚ)) ∧
    (cropResizePointU32 (applyZoomRect W H z fx fy).1 (applyZoomRect W H z fx fy).2.1
      (W / z) (H / z) W H fx fy).2
      = fy + fy * (H / z - (f64AsU32 (H / z) : ℚ)) / (f64AsU32 (H / z) : ℚ)
        + (fy * (1 - 1 / z) - (f64AsU32 (fy * (1 - 1 / z)) : ℚ)) *
          (H / (f64AsU32 (H / z) : ℚ)) ∧
    fx ≤ (cropResizePointU32 (applyZoomRect W H z fx fy).1 (applyZoomRect W H z fx fy).2.1
      (W / z) (H / z) W H fx fy).1 ∧
    fy ≤ (cropResizePointU32 (applyZoomRect W H z fx fy).1 (applyZoomRect W H z fx fy).2.1
      (W / z) (H / z) W H fx fy).2 := by
  have hz0 : 0 < z := lt_trans one_pos hz
  have hWz : W / z < W := div_lt_self hW hz
  have hHz : H / z < H := div_lt_self hH hz
  have hmaxW : max (W - W / z) 0 = W - W / z := max_eq_left (by linarith)
  have hmaxH : max (H - H / z) 0 = H - H / z := max_eq_left (by linarith)
  have hleft : (applyZoomRect W H z fx fy).1 = fx * (1 - 1 / z) := by
    unfold applyZoomRect rclamp
    dsimp only
    rw [hmaxW, max_eq_left hx0, min_eq_left hx1]
  have htop : (applyZoomRect W H z fx fy).2.1 = fy * (1 - 1 / z) := by
    unfold applyZoomRect rclamp
    dsimp only
    rw [hmaxH, max_eq_left hy0, min_eq_left hy1]
  have hfzpos : 0 < 1 - 1 / z := by
    have : 1 / z < 1 := by
      rw [div_lt_one hz0]
      exact hz
    linarith
  have hfx0 : 0 ≤ fx := by nlinarith [hx0, hfzpos]
  have hfy0 : 0 ≤ fy := by nlinarith [hy0, hfzpos]
  have hFVx1 : (1 : ℚ) ≤ (f64AsU32 (W / z) : ℚ) := by exact_mod_cast hvw
  have hFVy1 : (1 : ℚ) ≤ (f64AsU32 (H / z) : ℚ) := by exact_mod_cast hvh
  have hFVx0 : (0 : ℚ) < (f64AsU32 (W / z) : ℚ) := lt_of_lt_of_le one_pos hFVx1
  have hFVy0 : (0 : ℚ) < (f64AsU32 (H / z) : ℚ) := lt_of_lt_of_le one_pos hFVy1
  have hfx : (cropResizePointExact (applyZoomRect W H z fx fy).1
      (applyZoomRect W H z fx fy).2.1 (W / z) (H / z) W H fx fy).1 = fx := by
    unfold cropResizePointExact
    dsimp only
    rw [hleft]
    field_simp
    ring
  have hfy : (cropResizePointExact (applyZoomRect W H z fx fy).1
      (applyZoomRect W H z fx fy).2.1 (W / z) (H / z) W H fx fy).2 = fy := by
    unfold cropResizePointExact
    dsimp only
    rw [htop]
    field_simp
    ring
  have hidx : (cropResizePointU32 (applyZoomRect W H z fx fy).1
      (applyZoomRect W H z fx fy).2.1 (W / z) (H / z) W H fx fy).1
      = fx + fx * (W / z - (f64AsU32 (W / z) : ℚ)) / (f64AsU32 (W / z) : ℚ)
        + (fx * (1 - 1 / z) - (f64AsU32 (fx * (1 - 1 / z)) : ℚ)) *
          (W / (f64AsU32 (W / z) : ℚ)) := by
    unfold cropResizePointU32
    dsimp only
    rw [hleft]
    field_simp
    ring
  have hidy : (cropResizePointU32 (applyZoomRect W H z fx fy).1
      (applyZoomRect W H z fx fy).2.1 (W / z) (H / z) W H fx fy).2
      = fy + fy * (H / z - (f64AsU32 (H / z) : ℚ)) / (f64AsU32 (H / z) : ℚ)
        + (fy * (1 - 1 / z) - (f64AsU32 (fy * (1 - 1 / z)) : ℚ)) *
          (H / (f64AsU32 (H / z) : ℚ)) := by
    unfold cropResizePointU32
    dsimp only
    rw [htop]
    field_simp
    ring
  have herrx : fx ≤ (cropResizePointU32 (applyZoomRect W H z fx fy).1
      (applyZoomRect W H z fx fy).2.1 (W / z) (H / z) W H fx fy).1 := by
    rw [hidx]
    have ha : 0 ≤ fx * (W / z - (f64AsU32 (W / z) : ℚ)) / (f64AsU32 (W / z) : ℚ) :=
      div_nonneg (mul_nonneg hfx0
        (sub_nonneg.mpr (f64AsU32_le (W / z) (by positivity)))) (le_of_lt hFVx0)
    have hb : 0 ≤ (fx * (1 - 1 / z) - (f64AsU32 (fx * (1 - 1 / z)) : ℚ)) *
        (W / (f64AsU32 (W / z) : ℚ)) :=
      mul_nonneg (sub_nonneg.mpr (f64AsU32_le (fx * (1 - 1 / z)) hx0))
        (div_nonneg (le_of_lt hW) (le_of_lt hFVx0))
    linarith
  have herry : fy ≤ (cropResizePointU32 (applyZoomRect W H z fx fy).1
      (applyZoomRect W H z fx fy).2.1 (W / z) (H / z) W H fx fy).2 := by
    rw [hidy]
    have ha : 0 ≤ fy * (H / z - (f64AsU32 (H / z) : ℚ)) / (f64AsU32 (H / z) : ℚ) :=
      div_nonneg (mul_nonneg hfy0
        (sub_nonneg.mpr (f64AsU32_le (H / z) (by positivity)))) (le_of_lt hFVy0)
    have hb : 0 ≤ (fy * (1 - 1 / z) - (f64AsU32 (fy * (1 - 1 / z)) : ℚ)) *
        (H / (f64AsU32 (H / z) : ℚ)) :=
      mul_nonneg (sub_nonneg.mpr (f64AsU32_le (fy * (1 - 1 / z)) hy0))
        (div_nonneg (le_of_lt hH) (le_of_lt hFVy0))
    linarith
  exact ⟨by rw [hleft]; unfold rclamp; rw [max_eq_left hx0, min_eq_left hx1],
    by rw [htop]; unfold rclamp; rw [max_eq_left hy0, min_eq_left hy1],
    rfl, rfl, hfx, hfy, hidx, hidy, herrx, herry⟩

theorem apply_zoom_fixed_point_witness :
    ((1:ℚ) < 2 ∧ (0:ℚ) < 1920 ∧ (0:ℚ) < 1080 ∧
     (0:ℚ) ≤ 960 * (1 - 1 / 2) ∧ (960:ℚ) * (1 - 1 / 2) ≤ 1920 - 1920 / 2 ∧
     (0:ℚ) ≤ 540 * (1 - 1 / 2) ∧ (540:ℚ) * (1 - 1 / 2) ≤ 1080 - 1080 / 2 ∧
     1 ≤ f64AsU32 ((1920 : ℚ) / 2) ∧ 1 ≤ f64AsU32 ((1080 : ℚ) / 2)) ∧
    (cropResizePointExact (applyZoomRect 1920 1080 2 960 540).1
      (applyZoomRect 1920 1080 2 960 540).2.1
      (1920 / 2) (1080 / 2) 1920 1080 960 540).1 = 960 :=
  ⟨⟨by norm_num, by norm_num, by norm_num, by norm_num, by norm_num, by norm_num,
    by norm_num,
    by rw [show ((1920 : ℚ) / 2) = 960 by norm_num]
       rw [show f64AsU32 (960 : ℚ) = 960 by
         rw [f64AsU32, show ⌊(960 : ℚ)⌋ = 960 by rw [Int.floor_eq_iff]; norm_num]; rfl]
       norm_num,
    by rw [show ((1080 : ℚ) / 2) = 540 by norm_num]
       rw [show f64AsU32 (540 : ℚ) = 540 by
         rw [f64AsU32, show ⌊(540 : ℚ)⌋ = 540 by rw [Int.floor_eq_iff]; norm_num]; rfl]
       norm_num⟩,
   (apply_zoom_fixed_point 1920 1080 2 960 540 (by norm_num) (by norm_num) (by norm_num)
     (by norm_num) (by norm_num) (by norm_num) (by norm_num)
     (by rw [show ((1920 : ℚ) / 2) = 960 by norm_num]
         rw [show f64AsU32 (960 : ℚ) = 960 by
           rw [f64AsU32, show ⌊(960 : ℚ)⌋ = 960 by rw [Int.floor_eq_iff]; norm_num]; rfl]
         norm_num)
     (by rw [show ((1080 : ℚ) / 2) = 540 by norm_num]
         rw [show f64AsU32 (540 : ℚ) = 540 by
           rw [f64AsU32, show ⌊(540 : ℚ)⌋ = 540 by rw [Int.floor_eq_iff]; norm_num]; rfl]
         norm_num)).2.2.2.2.1⟩

/-! ### Motion phase classification (`determine_motion_phase`, `processing/motion_blur.rs`) -/

/-- `MotionPhase` (`processing/motion_blur.rs`). -/
inductive MotionPhase where
  | Idle
  | ZoomIn
  | Hold
  | ZoomOut
  | Pan
deriving DecidableEq, Repr

/-- `determine_motion_phase` (motion_blur.rs lines 123-145).  The source
compares `sqrt(pan_vx² + pan_vy²) > 50.0`; this is modelled by the
equivalent squared comparison `pan_vx² + pan_vy² > 50²`. -/
def determine_motion_phase (zoom zoom_velocity pan_vx pan_vy : ℚ) : MotionPhase :=
  if zoom < 1.01 then .Idle
  else if 0.05 < zoom_velocity then .ZoomIn
  else if zoom_velocity < -0.05 then .ZoomOut
  else if 50 * 50 < pan_vx * pan_vx + pan_vy * pan_vy then .Pan
  else .Hold

/-- C5: the phase checks are applied in order (Idle, ZoomIn, ZoomOut, Pan,
Hold), and at pan speed 49 px/s the phase is Hold while at 51 px/s (with
`|zoom_velocity| ≤ 0.05` and `zoom ≥ 1.01`) it is Pan. -/
theorem determine_motion_phase_spec (z zv vx vy : ℚ) :
    (z < 1.01 → determine_motion_phase z zv vx vy = .Idle) ∧
    (1.01 ≤ z → 0.05 < zv → determine_motion_phase z zv vx vy = .ZoomIn) ∧
    (1.01 ≤ z → zv < -0.05 → determine_motion_phase z zv vx vy = .ZoomOut) ∧
    (1.01 ≤ z → -0.05 ≤ zv → zv ≤ 0.05 → 50 * 50 < vx * vx + vy * vy →
      determine_motion_phase z zv vx vy = .Pan) ∧
    (1.01 ≤ z → -0.05 ≤ zv → zv ≤ 0.05 → vx * vx + vy * vy ≤ 50 * 50 →
      determine_motion_phase z zv vx vy = .Hold) ∧
    determine_motion_phase 1.5 0 49 0 = .Hold ∧
    determine_motion_phase 1.5 0 51 0 = .Pan := by
  refine ⟨?_, ?_, ?_, ?_, ?_, ?_, ?_⟩
  · intro h1
    unfold determine_motion_phase
    rw [if_pos h1]
  · intro h1 h2
    unfold determine_motion_phase
    rw [if_neg (not_lt.mpr h1), if_pos h2]
  · intro h1 h3
    unfold determine_motion_phase
    rw [if_neg (not_lt.mpr h1), if_neg (not_lt.mpr (by linarith)), if_pos h3]
  · intro h1 h2 h3 h4
    unfold determine_motion_phase
    rw [if_neg (not_lt.mpr h1), if_neg (not_lt.mpr h3), if_neg (not_lt.mpr h2), if_pos h4]
  · intro h1 h2 h3 h4
    unfold determine_motion_phase
    rw [if_neg (not_lt.mpr h1), if_neg (not_lt.mpr h3), if_neg (not_lt.mpr h2),
      if_neg (not_lt.mpr h4)]
  · unfold determine_motion_phase
    norm_num
  · unfold determine_motion_phase
    norm_num

theorem determine_motion_phase_spec_witness :
    ((1:ℚ) < 1.01) ∧ determine_motion_phase 1 0 0 0 = .Idle :=
  ⟨by norm_num, (determine_motion_phase_spec 1 0 0 0).1 (by norm_num)⟩

/-! ### Click ripples (`get_active_ripples`, `processing/click_highlight.rs`) -/

/-- An RGBA pixel with 8-bit channels, modelled over `ℕ`. -/
structure Px where
  r : ℕ
  g : ℕ
  b : ℕ
  a : ℕ
deriving DecidableEq, Repr

/-- `ClickHighlightConfig` (`processing/click_highlight.rs`). -/
structure ClickHighlightConfig where
  enabled : Bool
  duration : ℚ
  max_radius : ℚ
  ring_width : ℚ
  color : Px
deriving DecidableEq, Repr

/-- `ClickHighlightConfig::default()`. -/
def defaultClickHighlightConfig : ClickHighlightConfig :=
  { enabled := true, duration := 0.4, max_radius := 50, ring_width := 3,
    color := ⟨255, 255, 255, 255⟩ }

/-- `ActiveRipple` (`processing/click_highlight.rs`). -/
structure ActiveRipple where
  x : ℚ
  y : ℚ
  progress : ℚ
deriving DecidableEq, Repr

/-- `get_active_ripples` (click_highlight.rs lines 34-57): filter the click
events, then keep those whose elapsed time lies in `[0, duration)` with
progress `elapsed / duration`. -/
def get_active_ripples (timestamp : ℚ) (events : List Event)
    (cfg : ClickHighlightConfig) : List ActiveRipple :=
  (events.filter Event.isClick).filterMap fun click =>
    if 0 ≤ timestamp - click.timestamp ∧ timestamp - click.timestamp < cfg.duration then
      some ⟨click.x, click.y, (timestamp - click.timestamp) / cfg.duration⟩
    else none

/-- The ripple set described by the spec: one ripple per click event (of
any debounce status) whose age lies in `[0, duration)`, at the click
position with progress `(t - t_c) / D`. -/
def ripplesSpec (timestamp : ℚ) (events : List Event)
    (cfg : ClickHighlightConfig) : List ActiveRipple :=
  (events.filter fun e => Event.isClick e ∧
      0 ≤ timestamp - e.timestamp ∧ timestamp - e.timestamp < cfg.duration).map
    fun c => ⟨c.x, c.y, (timestamp - c.timestamp) / cfg.duration⟩

/-- C7: `get_active_ripples` returns exactly one ripple per click event in
the animation window, with the specified position and progress; it draws
from all clicks, so debounce-suppressed clicks still produce ripples. -/
theorem get_active_ripples_spec (timestamp : ℚ) (events : List Event)
    (cfg : ClickHighlightConfig) :
    get_active_ripples timestamp events cfg = ripplesSpec timestamp events cfg := by
  unfold get_active_ripples ripplesSpec
  induction events with
  | nil => rfl
  | cons e rest ih =>
    by_cases hc : Event.isClick e
    · by_cases hw : 0 ≤ timestamp - e.timestamp ∧ timestamp - e.timestamp < cfg.duration
      · rw [List.filter_cons_of_pos hc, List.filterMap_cons,
          List.filter_cons_of_pos (by simp [hc, hw]), List.map_cons, if_pos hw, ih]
      · rw [List.filter_cons_of_pos hc, List.filterMap_cons,
          List.filter_cons_of_neg (fun hpa =>
            hw ⟨(of_decide_eq_true hpa).2.1, (of_decide_eq_true hpa).2.2⟩),
          if_neg hw, ih]
    · rw [List.filter_cons_of_neg (by simp [hc]),
        List.filter_cons_of_neg (by simp [hc]), ih]

/-! ### Pipeline trim handling (`process_video`, `processing/pipeline.rs`) -/

/-- The externally observable effects of `process_video` after the
configuration has been validated (pipeline.rs lines 119-186): extracting
source frames, writing processed output frames, encoding the output file. -/
inductive PipelineStep where
  | extractFrames
  | processFrames
  | encodeVideo
deriving DecidableEq, Repr

/-- `trim_start.unwrap_or(0.0).max(0.0)` (pipeline.rs line 96). -/
def trimValue (v : Option ℚ) : ℚ := max (v.getD 0) 0

/-- `trimmed_duration = (original_duration - trim_start_secs - trim_end_secs).max(0.0)`
(pipeline.rs line 98). -/
def trimmedDuration (originalDuration : ℚ) (trimStart trimEnd : Option ℚ) : ℚ :=
  max (originalDuration - trimValue trimStart - trimValue trimEnd) 0

/-- The trim check and effect order of `process_video` (pipeline.rs lines
92-186): after `get_video_duration` returns `originalDuration`, the trim
values are validated; on failure the function bails out with an error
before `extract_frames`, before any output frame is written and before
`encode_video`; on success the three effects happen in that order. -/
def process_video_run (originalDuration : ℚ) (trimStart trimEnd : Option ℚ) :
    List PipelineStep × Option String :=
  if trimmedDuration originalDuration trimStart trimEnd ≤ 0 then
    ([], some "Trim values exceed video duration")
  else
    ([.extractFrames, .processFrames, .encodeVideo], none)

/-- C9: if the trimmed duration is ≤ 0, `process_video` returns an error
and performs none of the frame-extraction / frame-writing / encoding
effects. -/
theorem process_video_trim_atomic (originalDuration : ℚ) (trimStart trimEnd : Option ℚ)
    (h : trimmedDuration originalDuration trimStart trimEnd ≤ 0) :
    (process_video_run originalDuration trimStart trimEnd).2.isSome = true ∧
    (process_video_run originalDuration trimStart trimEnd).1 = [] ∧
    PipelineStep.extractFrames ∉ (process_video_run originalDuration trimStart trimEnd).1 ∧
    PipelineStep.processFrames ∉ (process_video_run originalDuration trimStart trimEnd).1 ∧
    PipelineStep.encodeVideo ∉ (process_video_run originalDuration trimStart trimEnd).1 := by
  unfold process_video_run
  rw [if_pos h]
  simp

theorem process_video_trim_atomic_witness :
    trimmedDuration 1 (some 2) none ≤ 0 ∧
    ((process_video_run 1 (some 2) none).2.isSome = true ∧
     (process_video_run 1 (some 2) none).1 = [] ∧
     PipelineStep.extractFrames ∉ (process_video_run 1 (some 2) none).1 ∧
     PipelineStep.processFrames ∉ (process_video_run 1 (some 2) none).1 ∧
     PipelineStep.encodeVideo ∉ (process_video_run 1 (some 2) none).1) :=
  ⟨by norm_num [trimmedDuration, trimValue],
   process_video_trim_atomic 1 (some 2) none (by norm_num [trimmedDuration, trimValue])⟩

/-! ### Cursor smoothing (`get_smoothed_position`, `processing/cursor.rs`) -/

/-- The events inside the two-sided smoothing window
`[t - 2σ, t + 0.5σ]` (cursor.rs lines 67-74). -/
def windowEvents (timestamp : ℚ) (events : List Event) (σ : ℚ) : List Event :=
  events.filter fun e =>
    timestamp - σ * 2 ≤ e.timestamp ∧ e.timestamp ≤ timestamp + σ * 0.5

/-- `adjusted_diff`: future events have their time difference doubled
(past-bias, cursor.rs lines 101-105). -/
def adjDiff (timestamp : ℚ) (e : Event) : ℚ :=
  if 0 < e.timestamp - timestamp then (e.timestamp - timestamp) * 2
  else e.timestamp - timestamp

/-- The Gaussian weight `exp(-adjusted² / (2σ²))` (cursor.rs line 106). -/
noncomputable def gaussWeight (σ timestamp : ℚ) (e : Event) : ℝ :=
  Real.exp (-((adjDiff timestamp e : ℝ) * (adjDiff timestamp e : ℝ)) /
    (2 * (σ : ℝ) * (σ : ℝ)))

/-- Most recent event at or before the timestamp, or the origin
(cursor.rs lines 77-83). -/
def fallbackPos (timestamp : ℚ) (events : List Event) : ℚ × ℚ :=
  match (events.filter fun e => e.timestamp ≤ timestamp).getLast? with
  | some e => (e.x, e.y)
  | none => (0, 0)

/-- `get_smoothed_position` (cursor.rs lines 62-118). -/
noncomputable def get_smoothed_position (timestamp : ℚ) (events : List Event)
    (σ : ℚ) : ℝ × ℝ :=
  match windowEvents timestamp events σ with
  | [] => (((fallbackPos timestamp events).1 : ℝ), ((fallbackPos timestamp events).2 : ℝ))
  | [e] => ((e.x : ℝ), (e.y : ℝ))
  | e1 :: e2 :: rest =>
    if 0 < ((e1 :: e2 :: rest).map (gaussWeight σ timestamp)).sum then
      (((e1 :: e2 :: rest).map fun e => gaussWeight σ timestamp e * (e.x : ℝ)).sum /
          ((e1 :: e2 :: rest).map (gaussWeight σ timestamp)).sum,
        ((e1 :: e2 :: rest).map fun e => gaussWeight σ timestamp e * (e.y : ℝ)).sum /
          ((e1 :: e2 :: rest).map (gaussWeight σ timestamp)).sum)
    else ((e1.x : ℝ), (e1.y : ℝ))

theorem exists_max_image {α : Type} (l : List α) (f : α → ℝ) (h : l ≠ []) :
    ∃ b ∈ l, ∀ a ∈ l, f a ≤ f b := by
  induction l with
  | nil => exact absurd rfl h
  | cons x xs ih =>
    cases xs with
    | nil =>
      refine ⟨x, List.mem_cons_self _ _, ?_⟩
      intro a ha
      rcases List.mem_cons.mp ha with rfl | ha
      · exact le_refl _
      · simp at ha
    | cons y ys =>
      obtain ⟨b, hb, hmax⟩ := ih (by simp)
      by_cases hx : f x ≤ f b
      · refine ⟨b, List.mem_cons_of_mem x hb, ?_⟩
        intro a ha
        rcases List.mem_cons.mp ha with rfl | ha
        · exact hx
        · exact hmax a ha
      · refine ⟨x, List.mem_cons_self _ _, ?_⟩
        intro a ha
        rcases List.mem_cons.mp ha with rfl | ha
        · exact le_refl _
        · exact le_trans (hmax a ha) (le_of_not_le hx)

theorem exists_min_image {α : Type} (l : List α) (f : α → ℝ) (h : l ≠ []) :
    ∃ b ∈ l, ∀ a ∈ l, f b ≤ f a := by
  obtain ⟨b, hb, hmax⟩ := exists_max_image l (fun a => -f a) h
  exact ⟨b, hb, fun a ha => neg_le_neg_iff.mp (hmax a ha)⟩

theorem sum_map_mul_const {α : Type} (l : List α) (g : α → ℝ) (B : ℝ) :
    (l.map fun e => g e * B).sum = (l.map g).sum * B := by
  induction l with
  | nil => simp
  | cons x xs ih => simp [ih, add_mul]

/-- A positively weighted mean is at most any pointwise upper bound. -/
theorem weighted_mean_le {α : Type} (w : List α) (g f : α → ℝ)
    (hg : ∀ e ∈ w, 0 < g e) (hne : w ≠ []) (B : ℝ) (hB : ∀ e ∈ w, f e ≤ B) :
    (w.map fun e => g e * f e).sum / (w.map g).sum ≤ B := by
  have htot : 0 < (w.map g).sum := by
    refine List.sum_pos _ ?_ (by simpa using hne)
    intro x hx
    obtain ⟨e, he, rfl⟩ := List.mem_map.mp hx
    exact hg e he
  rw [div_le_iff htot]
  calc (w.map fun e => g e * f e).sum
      ≤ (w.map fun e => g e * B).sum := by
        refine List.sum_le_sum ?_
        intro e he
        exact mul_le_mul_of_nonneg_left (hB e he) (le_of_lt (hg e he))
    _ = B * (w.map g).sum := by rw [sum_map_mul_const, mul_comm]

/-- A positively weighted mean is at least any pointwise lower bound. -/
theorem le_weighted_mean {α : Type} (w : List α) (g f : α → ℝ)
    (hg : ∀ e ∈ w, 0 < g e) (hne : w ≠ []) (B : ℝ) (hB : ∀ e ∈ w, B ≤ f e) :
    B ≤ (w.map fun e => g e * f e).sum / (w.map g).sum := by
  have htot : 0 < (w.map g).sum := by
    refine List.sum_pos _ ?_ (by simpa using hne)
    intro x hx
    obtain ⟨e, he, rfl⟩ := List.mem_map.mp hx
    exact hg e he
  rw [le_div_iff htot]
  calc B * (w.map g).sum
      = (w.map fun e => g e * B).sum := by rw [sum_map_mul_const, mul_comm]
    _ ≤ (w.map fun e => g e * f e).sum := by
        refine List.sum_le_sum ?_
        intro e he
        exact mul_le_mul_of_nonneg_left (hB e he) (le_of_lt (hg e he))

/-- C6: whenever the smoothing window `[t - 2σ, t + 0.5σ]` contains at
least one event, the smoothed position lies inside the axis-aligned
bounding box of the window's event positions. -/
theorem cursor_smoothing_bounded (timestamp σ : ℚ) (events : List Event)
    (hσ : 0 < σ) (hne : windowEvents timestamp events σ ≠ []) :
    (∃ a ∈ windowEvents timestamp events σ,
      (a.x : ℝ) ≤ (get_smoothed_position timestamp events σ).1) ∧
    (∃ b ∈ windowEvents timestamp events σ,
      (get_smoothed_position timestamp events σ).1 ≤ (b.x : ℝ)) ∧
    (∃ a ∈ windowEvents timestamp events σ,
      (a.y : ℝ) ≤ (get_smoothed_position timestamp events σ).2) ∧
    (∃ b ∈ windowEvents timestamp events σ,
      (get_smoothed_position timestamp events σ).2 ≤ (b.y : ℝ)) := by
  unfold get_smoothed_position
  rcases hw : windowEvents timestamp events σ with _ | ⟨e1, _ | ⟨e2, rest⟩⟩
  · exact absurd hw hne
  · refine ⟨⟨e1, List.mem_cons_self _ _, le_refl _⟩,
      ⟨e1, List.mem_cons_self _ _, le_refl _⟩,
      ⟨e1, List.mem_cons_self _ _, le_refl _⟩,
      ⟨e1, List.mem_cons_self _ _, le_refl _⟩⟩
  · dsimp only
    have hgpos : ∀ e ∈ e1 :: e2 :: rest, 0 < gaussWeight σ timestamp e := by
      intro e _
      exact Real.exp_pos _
    have hnil : (e1 :: e2 :: rest : List Event) ≠ [] := by simp
    by_cases htot : 0 < ((e1 :: e2 :: rest).map (gaussWeight σ timestamp)).sum
    · rw [if_pos htot]
      obtain ⟨bx, hbx, hbxmax⟩ := exists_max_image (e1 :: e2 :: rest) (fun e => (e.x : ℝ)) hnil
      obtain ⟨ax, hax, haxmin⟩ := exists_min_image (e1 :: e2 :: rest) (fun e => (e.x : ℝ)) hnil
      obtain ⟨by', hby, hbymax⟩ := exists_max_image (e1 :: e2 :: rest) (fun e => (e.y : ℝ)) hnil
      obtain ⟨ay, hay, haymin⟩ := exists_min_image (e1 :: e2 :: rest) (fun e => (e.y : ℝ)) hnil
      refine ⟨⟨ax, hax, ?_⟩, ⟨bx, hbx, ?_⟩, ⟨ay, hay, ?_⟩, ⟨by', hby, ?_⟩⟩
      · exact le_weighted_mean _ _ _ hgpos hnil _ haxmin
      · exact weighted_mean_le _ _ _ hgpos hnil _ hbxmax
      · exact le_weighted_mean _ _ _ hgpos hnil _ haymin
      · exact weighted_mean_le _ _ _ hgpos hnil _ hbymax
    · rw [if_neg htot]
      refine ⟨⟨e1, List.mem_cons_self _ _, le_refl _⟩,
        ⟨e1, List.mem_cons_self _ _, le_refl _⟩,
        ⟨e1, List.mem_cons_self _ _, le_refl _⟩,
        ⟨e1, List.mem_cons_self _ _, le_refl _⟩⟩

/-- A single move event sitting inside the smoothing window at `t = 0`. -/
def cEv : Event := { x := 5, y := 7, timestamp := 0, eventType := .Move }

theorem cursor_smoothing_bounded_witness :
    ((0:ℚ) < 1 ∧ windowEvents 0 [cEv] 1 ≠ []) ∧
    ((∃ a ∈ windowEvents 0 [cEv] 1, (a.x : ℝ) ≤ (get_smoothed_position 0 [cEv] 1).1) ∧
     (∃ b ∈ windowEvents 0 [cEv] 1, (get_smoothed_position 0 [cEv] 1).1 ≤ (b.x : ℝ)) ∧
     (∃ a ∈ windowEvents 0 [cEv] 1, (a.y : ℝ) ≤ (get_smoothed_position 0 [cEv] 1).2) ∧
     (∃ b ∈ windowEvents 0 [cEv] 1, (get_smoothed_position 0 [cEv] 1).2 ≤ (b.y : ℝ))) :=
  ⟨⟨by norm_num, by norm_num [windowEvents, List.filter, cEv]⟩,
   cursor_smoothing_bounded 0 1 [cEv] (by norm_num)
     (by norm_num [windowEvents, List.filter, cEv])⟩

/-! ### Frame compositing (`processing/effects.rs`, `click_highlight.rs`, `cursor.rs`)

Images are modelled as a pixel function together with their dimensions.
Each Rust drawing loop writes every canvas pixel at most once per pass
(the shadow runs twenty passes), so a pass is embedded as a pointwise
update guarded by exactly the loop-range and branch conditions under which
the source writes that pixel.  `u32` corner arithmetic is modelled over
`ℤ` (exact, no wrap-around). -/

/-- An RGBA canvas. -/
structure Img where
  width : ℕ
  height : ℕ
  pix : ℕ → ℕ → Px

/-- `blend_channel` (effects.rs lines 241-246): `u32` arithmetic with
truncating division. -/
def blend_channel (bg fg alpha : ℕ) : ℕ := (bg * (255 - alpha) + fg * alpha) / 255

/-- `SHADOW_OFFSET` (effects.rs). -/
def SHADOW_OFFSET : ℤ := 8

/-- `SHADOW_BLUR_RADIUS` (effects.rs). -/
def SHADOW_BLUR_RADIUS : ℕ := 20

/-- `SHADOW_COLOR` (effects.rs). -/
def SHADOW_COLOR : Px := ⟨0, 0, 0, 80⟩

/-- `u32::MAX + 1`. -/
def U32LIMIT : ℕ := 4294967296

/-- Release-mode Rust `a - b - 1` on `u32` operands (`a, b < 2³²`): the
subtraction wraps around modulo `2³²` when `b + 1 > a`. -/
def u32sub1 (a b : ℕ) : ℕ := (a + U32LIMIT - b - 1) % U32LIMIT

/-- One corner test of `is_inside_rounded_rect` (effects.rs lines 222-235)
over the already-bounds-checked `u32` pixel coordinates: the pixel lies in
this corner's square and strictly beyond the corner radius.  The corner
centres `width - radius - 1` / `height - radius - 1` are `u32`
subtractions, which wrap around for rectangles narrower than
`radius + 1`; the squared-distance comparison is exact (for the radii in
use, `f64` represents it exactly whenever it can be a near-tie). -/
def cornerOutside (x y : ℕ) (w h r : ℕ) (cx cy : ℕ) : Prop :=
  ((x ≤ r ∧ cx = r) ∨ (u32sub1 w r ≤ x ∧ cx = u32sub1 w r)) ∧
  ((y ≤ r ∧ cy = r) ∨ (u32sub1 h r ≤ y ∧ cy = u32sub1 h r)) ∧
  (r : ℤ) * r < ((x : ℤ) - cx) * ((x : ℤ) - cx) + ((y : ℤ) - cy) * ((y : ℤ) - cy)

/-- `is_inside_rounded_rect` (effects.rs lines 205-238): signed bounds
check, then the four corner tests on the `u32`-cast coordinates, with the
source's wrapping `u32` corner arithmetic. -/
def is_inside_rounded_rect (x y : ℤ) (width height radius : ℕ) : Prop :=
  ¬(x < 0 ∨ y < 0 ∨ (width : ℤ) ≤ x ∨ (height : ℤ) ≤ y) ∧
  ¬(cornerOutside x.toNat y.toNat width height radius radius radius ∨
    cornerOutside x.toNat y.toNat width height radius (u32sub1 width radius) radius ∨
    cornerOutside x.toNat y.toNat width height radius radius (u32sub1 height radius) ∨
    cornerOutside x.toNat y.toNat width height radius
      (u32sub1 width radius) (u32sub1 height radius))

instance (x y : ℤ) (w h r : ℕ) : Decidable (is_inside_rounded_rect x y w h r) := by
  unfold is_inside_rounded_rect cornerOutside
  infer_instance

/-- `layer_alpha` (effects.rs lines 167-168): `u32` truncating division. -/
def layerAlpha (l : ℕ) : ℕ :=
  SHADOW_COLOR.a * (SHADOW_BLUR_RADIUS - l) / (SHADOW_BLUR_RADIUS * SHADOW_BLUR_RADIUS)

/-- A canvas pixel `(px, py)` lies inside shadow layer `l`'s rounded
rectangle: local coordinates relative to `(shadow_x - expand, shadow_y -
expand)` inside a `(w + 2·expand) × (h + 2·expand)` rectangle of corner
radius `radius + expand` (effects.rs lines 186-191). -/
def inShadowLayer (x y : ℤ) (w h radius : ℕ) (l : ℕ) (px py : ℕ) : Prop :=
  is_inside_rounded_rect ((px : ℤ) - (x + SHADOW_OFFSET) + l) ((py : ℤ) - (y + SHADOW_OFFSET) + l)
    (w + 2 * l) (h + 2 * l) (radius + l)

instance (x y : ℤ) (w h radius l px py : ℕ) :
    Decidable (inShadowLayer x y w h radius l px py) := by
  unfold inShadowLayer
  infer_instance

/-- Blend the shadow colour over a pixel's colour channels, leaving the
alpha channel untouched (effects.rs lines 193-199). -/
def shadowBlendPx (p : Px) (alpha : ℕ) : Px :=
  ⟨blend_channel p.r SHADOW_COLOR.r alpha,
   blend_channel p.g SHADOW_COLOR.g alpha,
   blend_channel p.b SHADOW_COLOR.b alpha, p.a⟩

/-- One shadow layer pass: a pixel is painted iff it is on the canvas,
inside the layer's rounded rectangle, and the layer alpha is nonzero
(the `continue` for zero alpha, the loop bounds and the in-canvas guard
of effects.rs lines 170-199). -/
def shadowLayerPaint (x y : ℤ) (w h radius : ℕ) (l : ℕ) (c : Img)
    (pix : ℕ → ℕ → Px) : ℕ → ℕ → Px :=
  fun px py =>
    if px < c.width ∧ py < c.height ∧ layerAlpha l ≠ 0 ∧ inShadowLayer x y w h radius l px py
    then shadowBlendPx (pix px py) (layerAlpha l)
    else pix px py

/-- `draw_shadow` (effects.rs lines 160-203): `SHADOW_BLUR_RADIUS`
concentric layer passes, in order of increasing `blur_layer`. -/
def draw_shadow (c : Img) (x y : ℤ) (w h radius : ℕ) : Img :=
  Img.mk c.width c.height
    ((List.range SHADOW_BLUR_RADIUS).foldl
      (fun acc l => shadowLayerPaint x y w h radius l c acc) c.pix)

theorem shadow_foldl_apply (x y : ℤ) (w h radius : ℕ) (c : Img) :
    ∀ (L : List ℕ) (f0 : ℕ → ℕ → Px) (px py : ℕ),
    (L.foldl (fun acc l => shadowLayerPaint x y w h radius l c acc) f0) px py =
    L.foldl (fun p l =>
      if px < c.width ∧ py < c.height ∧ layerAlpha l ≠ 0 ∧ inShadowLayer x y w h radius l px py
      then shadowBlendPx p (layerAlpha l) else p) (f0 px py) := by
  intro L
  induction L with
  | nil => intro f0 px py; rfl
  | cons l0 L ih =>
    intro f0 px py
    rw [List.foldl_cons, List.foldl_cons, ih]
    rfl

theorem shadow_foldl_skip (x y : ℤ) (w h radius : ℕ) (c : Img) (px py : ℕ) :
    ∀ (L : List ℕ) (p0 : Px), (∀ l ∈ L, ¬ inShadowLayer x y w h radius l px py) →
    L.foldl (fun p l =>
      if px < c.width ∧ py < c.height ∧ layerAlpha l ≠ 0 ∧ inShadowLayer x y w h radius l px py
      then shadowBlendPx p (layerAlpha l) else p) p0 = p0 := by
  intro L
  induction L with
  | nil => intro p0 _; rfl
  | cons l0 L ih =>
    intro p0 hns
    have hcond : ¬(px < c.width ∧ py < c.height ∧ layerAlpha l0 ≠ 0 ∧
        inShadowLayer x y w h radius l0 px py) :=
      fun hc => hns l0 (List.mem_cons_self _ _) hc.2.2.2
    rw [List.foldl_cons, if_neg hcond]
    exact ih p0 fun l hl => hns l (List.mem_cons_of_mem _ hl)

/-- C8: `draw_shadow` paints `SHADOW_BLUR_RADIUS = 20` concentric
rounded-rectangle layers offset by `SHADOW_OFFSET = 8` px in x and y; the
layer at index `l` blends with per-layer alpha
`SHADOW_COLOR.a · (R - l) / R²` (integer division, `R = 20`,
`SHADOW_COLOR = (0,0,0,80)`), and a pixel is painted only where it lies
inside some layer's rounded rectangle of corner radius `radius + expand`. -/
theorem draw_shadow_spec (c : Img) (x y : ℤ) (w h radius : ℕ) :
    (SHADOW_BLUR_RADIUS = 20 ∧ SHADOW_OFFSET = 8 ∧ SHADOW_COLOR = ⟨0, 0, 0, 80⟩) ∧
    (∀ l : ℕ, layerAlpha l = SHADOW_COLOR.a * (SHADOW_BLUR_RADIUS - l) /
      (SHADOW_BLUR_RADIUS * SHADOW_BLUR_RADIUS)) ∧
    (∀ px py : ℕ, (draw_shadow c x y w h radius).pix px py =
      (List.range SHADOW_BLUR_RADIUS).foldl (fun p l =>
        if px < c.width ∧ py < c.height ∧ layerAlpha l ≠ 0 ∧
            inShadowLayer x y w h radius l px py
        then shadowBlendPx p (layerAlpha l) else p) (c.pix px py)) ∧
    (∀ px py : ℕ, (∀ l, l < SHADOW_BLUR_RADIUS → ¬ inShadowLayer x y w h radius l px py) →
      (draw_shadow c x y w h radius).pix px py = c.pix px py) := by
  refine ⟨⟨rfl, rfl, rfl⟩, fun l => rfl, ?_, ?_⟩
  · intro px py
    exact shadow_foldl_apply x y w h radius c (List.range SHADOW_BLUR_RADIUS) c.pix px py
  · intro px py hout
    exact (shadow_foldl_apply x y w h radius c (List.range SHADOW_BLUR_RADIUS)
        c.pix px py).trans
      (shadow_foldl_skip x y w h radius c px py (List.range SHADOW_BLUR_RADIUS) (c.pix px py)
        fun l hl => hout l (List.mem_range.mp hl))

/-- A uniform opaque test canvas. -/
def wCanvas : Img := ⟨32, 32, fun _ _ => ⟨10, 20, 30, 255⟩⟩

theorem draw_shadow_spec_witness :
    (∀ l, l < SHADOW_BLUR_RADIUS → ¬ inShadowLayer 0 0 4 4 2 l 31 31) ∧
    (draw_shadow wCanvas 0 0 4 4 2).pix 31 31 = wCanvas.pix 31 31 :=
  ⟨by decide, (draw_shadow_spec wCanvas 0 0 4 4 2).2.2.2 31 31 (by decide)⟩

section RingDrawing

open scoped Classical

/-- Rust `f64 as u8`: truncate toward zero and saturate into `[0, 255]`. -/
noncomputable def satU8R (v : ℝ) : ℕ := min (Int.toNat ⌊v⌋) 255

/-- The anti-aliased `edge_alpha` of `draw_ring_pixels`
(click_highlight.rs lines 158-166). -/
noncomputable def ringEdgeAlpha (dist inner outer : ℝ) : ℝ :=
  if dist < inner + 1 then dist - inner
  else if outer - 1 < dist then outer - dist
  else 1

/-- Euclidean distance from a ring centre to a pixel
(click_highlight.rs lines 151-153). -/
noncomputable def ringDist (cx cy : ℚ) (px py : ℕ) : ℝ :=
  Real.sqrt (((((px : ℚ) - cx) * ((px : ℚ) - cx) +
    ((py : ℚ) - cy) * ((py : ℚ) - cy) : ℚ) : ℝ))

/-- `final_alpha` (click_highlight.rs line 168). -/
noncomputable def ringFinalAlpha (dist : ℝ) (opacity : ℚ) (color : Px)
    (inner outer : ℚ) : ℕ :=
  satU8R (ringEdgeAlpha dist (inner : ℝ) (outer : ℝ) * (opacity : ℝ) *
    (color.a : ℝ) / 255 * 255)

/-- Ring bounding-box bounds (click_highlight.rs lines 143-146); `as u32`
saturates negatives to 0. -/
def ringMinCoord (cc outer : ℚ) : ℕ := Int.toNat ⌊max (cc - outer - 1) 0⌋

def ringMaxCoord (cc outer : ℚ) (dim : ℕ) : ℕ :=
  Int.toNat ⌊min (cc + outer + 1) ((dim : ℚ) - 1)⌋

/-- `draw_ring_pixels` (click_highlight.rs lines 129-179): pixels inside
the bounding box whose distance lies in `[inner, outer]` and whose final
alpha is positive get their colour channels blended; the alpha channel is
never written. -/
noncomputable def draw_ring_pixels (c : Img) (cx cy inner outer opacity : ℚ)
    (color : Px) : Img :=
  if outer < 1 then c
  else Img.mk c.width c.height fun px py =>
    if ringMinCoord cx outer ≤ px ∧ px ≤ ringMaxCoord cx outer c.width ∧
        ringMinCoord cy outer ≤ py ∧ py ≤ ringMaxCoord cy outer c.height ∧
        (inner : ℝ) ≤ ringDist cx cy px py ∧ ringDist cx cy px py ≤ (outer : ℝ) ∧
        0 < ringFinalAlpha (ringDist cx cy px py) opacity color inner outer
    then Px.mk
      (blend_channel (c.pix px py).r color.r
        (ringFinalAlpha (ringDist cx cy px py) opacity color inner outer))
      (blend_channel (c.pix px py).g color.g
        (ringFinalAlpha (ringDist cx cy px py) opacity color inner outer))
      (blend_channel (c.pix px py).b color.b
        (ringFinalAlpha (ringDist cx cy px py) opacity color inner outer))
      (c.pix px py).a
    else c.pix px py

/-- `draw_ring` (click_highlight.rs lines 80-126): a dark shadow annulus
then the main ring. -/
noncomputable def draw_ring (c : Img) (cx cy progress : ℚ)
    (cfg : ClickHighlightConfig) : Img :=
  if cfg.max_radius * ease_out_cubic progress < 1 ∨
      1 - ease_out_cubic progress < 0.01 then c
  else
    draw_ring_pixels
      (draw_ring_pixels c cx cy
        (max (cfg.max_radius * ease_out_cubic progress - (cfg.ring_width + 3) / 2) 0)
        (cfg.max_radius * ease_out_cubic progress + (cfg.ring_width + 3) / 2)
        ((1 - ease_out_cubic progress) * 0.6) ⟨0, 0, 0, 150⟩)
      cx cy
      (max (cfg.max_radius * ease_out_cubic progress - cfg.ring_width / 2) 0)
      (cfg.max_radius * ease_out_cubic progress + cfg.ring_width / 2)
      (1 - ease_out_cubic progress) cfg.color

/-- `draw_click_highlights` (click_highlight.rs lines 65-77). -/
noncomputable def draw_click_highlights (c : Img) (ripples : List ActiveRipple)
    (cfg : ClickHighlightConfig) : Img :=
  if cfg.enabled = false then c
  else ripples.foldl (fun acc rp => draw_ring acc rp.x rp.y rp.progress cfg) c

end RingDrawing

/-- Rust `f64 as i64`: truncation toward zero. -/
def qtrunc (v : ℚ) : ℤ := if 0 ≤ v then ⌊v⌋ else -⌊-v⌋

/-- Rust `f64 as u8` on a rational: truncate toward zero, saturate. -/
def satU8Q (v : ℚ) : ℕ := min (Int.toNat (qtrunc v)) 255

/-- The scaled-cursor-sprite pixel that lands on canvas pixel `(qx, qy)`
when the sprite's top-left corner sits at `(x as i64, y as i64)`. -/
def cursorSampleAt (sprite : Img) (x y : ℚ) (qx qy : ℕ) : Px :=
  sprite.pix (Int.toNat ((qx : ℤ) - qtrunc x)) (Int.toNat ((qy : ℤ) - qtrunc y))

/-- `draw_cursor` (cursor.rs lines 174-220), with the Lanczos-scaled
sprite supplied as an argument (the resample of the embedded PNG asset is
performed by the image library).  Colour channels of covered canvas
pixels are blended with per-pixel alpha `sprite_alpha · opacity`; the
canvas alpha channel is never written. -/
def draw_cursor (c : Img) (sprite : Img) (x y opacity : ℚ) : Img :=
  Img.mk c.width c.height fun qx qy =>
    if qx < c.width ∧ qy < c.height ∧
        qtrunc x ≤ (qx : ℤ) ∧ (qx : ℤ) < qtrunc x + sprite.width ∧
        qtrunc y ≤ (qy : ℤ) ∧ (qy : ℤ) < qtrunc y + sprite.height ∧
        0 < (cursorSampleAt sprite x y qx qy).a
    then Px.mk
      (blend_channel (c.pix qx qy).r (cursorSampleAt sprite x y qx qy).r
        (satU8Q ((cursorSampleAt sprite x y qx qy).a * opacity)))
      (blend_channel (c.pix qx qy).g (cursorSampleAt sprite x y qx qy).g
        (satU8Q ((cursorSampleAt sprite x y qx qy).a * opacity)))
      (blend_channel (c.pix qx qy).b (cursorSampleAt sprite x y qx qy).b
        (satU8Q ((cursorSampleAt sprite x y qx qy).a * opacity)))
      (c.pix qx qy).a
    else c.pix qx qy

theorem shadow_fn_foldl_alpha (x y : ℤ) (w h radius : ℕ) (c : Img) :
    ∀ (L : List ℕ) (f0 : ℕ → ℕ → Px) (px py : ℕ),
    ((L.foldl (fun acc l => shadowLayerPaint x y w h radius l c acc) f0) px py).a
      = (f0 px py).a := by
  intro L
  induction L with
  | nil => intro f0 px py; rfl
  | cons l0 L ih =>
    intro f0 px py
    rw [List.foldl_cons, ih]
    unfold shadowLayerPaint
    split_ifs with hc
    · rfl
    · rfl

theorem draw_shadow_alpha (c : Img) (x y : ℤ) (w h radius px py : ℕ) :
    ((draw_shadow c x y w h radius).pix px py).a = (c.pix px py).a := by
  unfold draw_shadow
  exact shadow_fn_foldl_alpha x y w h radius c (List.range SHADOW_BLUR_RADIUS) c.pix px py

theorem draw_ring_pixels_alpha (c : Img) (cx cy inner outer opacity : ℚ)
    (color : Px) (px py : ℕ) :
    ((draw_ring_pixels c cx cy inner outer opacity color).pix px py).a
      = (c.pix px py).a := by
  unfold draw_ring_pixels
  split_ifs with h1
  · rfl
  · dsimp only
    split_ifs with h2
    · rfl
    · rfl

theorem draw_ring_alpha (c : Img) (cx cy progress : ℚ) (cfg : ClickHighlightConfig)
    (px py : ℕ) :
    ((draw_ring c cx cy progress cfg).pix px py).a = (c.pix px py).a := by
  unfold draw_ring
  split_ifs with h1
  · rfl
  · rw [draw_ring_pixels_alpha, draw_ring_pixels_alpha]

theorem draw_click_highlights_alpha (c : Img) (ripples : List ActiveRipple)
    (cfg : ClickHighlightConfig) (px py : ℕ) :
    ((draw_click_highlights c ripples cfg).pix px py).a = (c.pix px py).a := by
  unfold draw_click_highlights
  split_ifs with h1
  · rfl
  · induction ripples generalizing c with
    | nil => rfl
    | cons rp rs ih =>
      rw [List.foldl_cons]
      rw [ih (draw_ring c rp.x rp.y rp.progress cfg)]
      exact draw_ring_alpha c rp.x rp.y rp.progress cfg px py

theorem draw_cursor_alpha (c sprite : Img) (x y opacity : ℚ) (px py : ℕ) :
    ((draw_cursor c sprite x y opacity).pix px py).a = (c.pix px py).a := by
  unfold draw_cursor
  dsimp only
  split_ifs with h1
  · rfl
  · rfl

/-- C10: the shadow, click-highlight and cursor drawing routines blend
only the R, G, B channels; the alpha channel of every canvas pixel is
left unchanged, individually and after compositing all three in pipeline
order (so an opaque canvas stays opaque). -/
theorem compositing_preserves_alpha :
    (∀ (c : Img) (x y : ℤ) (w h radius px py : ℕ),
      ((draw_shadow c x y w h radius).pix px py).a = (c.pix px py).a) ∧
    (∀ (c : Img) (cx cy inner outer opacity : ℚ) (color : Px) (px py : ℕ),
      ((draw_ring_pixels c cx cy inner outer opacity color).pix px py).a
        = (c.pix px py).a) ∧
    (∀ (c : Img) (ripples : List ActiveRipple) (cfg : ClickHighlightConfig) (px py : ℕ),
      ((draw_click_highlights c ripples cfg).pix px py).a = (c.pix px py).a) ∧
    (∀ (c sprite : Img) (x y opacity : ℚ) (px py : ℕ),
      ((draw_cursor c sprite x y opacity).pix px py).a = (c.pix px py).a) ∧
    (∀ (c sprite : Img) (x y : ℤ) (w h radius : ℕ) (cx cy cop : ℚ)
        (ripples : List ActiveRipple) (cfg : ClickHighlightConfig) (px py : ℕ),
      ((draw_click_highlights
          (draw_cursor (draw_shadow c x y w h radius) sprite cx cy cop)
          ripples cfg).pix px py).a = (c.pix px py).a) := by
  refine ⟨draw_shadow_alpha, draw_ring_pixels_alpha, draw_click_highlights_alpha,
    draw_cursor_alpha, ?_⟩
  intro c sprite x y w h radius cx cy cop ripples cfg px py
  rw [draw_click_highlights_alpha, draw_cursor_alpha, draw_shadow_alpha]

end Glide
